import Mathlib

/-!
Shallow embedding of the floor-plan layout core (`layout_gen.py`, `layout_optimize.py`)
over exact rational arithmetic, together with theorems settling the frozen claims.

Modelling conventions:
* Python floats are modelled as `ℚ` (exact arithmetic; the spec's claims are stated
  "in exact arithmetic; bitwise modulo floating tolerance").
* Python dicts keyed by room id are modelled as insertion-ordered association lists
  (`Coords`); `dict[k] = v` is `setk` (in-place update if the key exists, append
  otherwise), matching Python's insertion-order semantics.
* `math.hypot` and `math.exp` are irrational on the rationals, so they enter the
  embedding as explicit function parameters (`hyp`, `expQ`); theorems constrain them
  by hypotheses (e.g. nonnegativity of `hyp`, `expQ 0 = 1`) exactly where the source's
  behaviour depends on those facts.
* The global Mersenne-Twister RNG seeded by `random.seed(seed)` is modelled as a
  seed-determined stream `u : ℕ → ℚ` of unit draws consumed sequentially through a
  counter, with `random.uniform a b = a + (b-a)*u k` (the CPython formula) and
  `random.choice xs = xs[⌊u k * len xs⌋]`.
-/

set_option maxRecDepth 100000
set_option maxHeartbeats 1000000

namespace FloorPlan

/-- `room.size_m` in the Pydantic plan: optional explicit width/height. -/
structure SizeM where
  width_m : Option ℚ
  height_m : Option ℚ
deriving DecidableEq, Repr

/-- A room of the Plan.  `rtype` models the Python attribute `type`. -/
structure Room where
  id : String
  rtype : String
  preferred_adjacent : List String
  size_m : Option SizeM
  min_width_m : Option ℚ
  min_height_m : Option ℚ
deriving DecidableEq, Repr

/-- The Plan: ordered room list plus door pairs `(from_room, to_room)`. -/
structure Plan where
  rooms : List Room
  doors : List (String × String)
deriving DecidableEq, Repr

/-- Python truthiness of an optional float: `None` and `0.0` are falsy. -/
def truthyQ : Option ℚ → Bool
  | none => false
  | some q => q != 0

/-- Python `x or d` for an optional float `x`: the value when truthy, else `d`. -/
def qOr (x : Option ℚ) (d : ℚ) : ℚ :=
  match x with
  | none => d
  | some q => if q = 0 then d else q

/-- The module-level `DEFAULT_SIZES` table of `layout_gen.py`. -/
def DEFAULT_SIZES : List (String × (ℚ × ℚ)) :=
  [("Living Room", (5, 4)),
   ("Kitchen", (3, 3)),
   ("Master Bedroom", (4, 4)),
   ("Kids Room", (7/2, 3)),
   ("Guest Room", (7/2, 3)),
   ("Bathroom", (9/5, 12/5)),
   ("Balcony", (2, 3/2))]

/-- `DEFAULT_SIZES.get(t, (3.5, 3.0))`. -/
def defaultSize (t : String) : ℚ × ℚ :=
  ((DEFAULT_SIZES.find? (fun p => p.1 == t)).map Prod.snd).getD (7/2, 3)

/-- `_size_for` from `layout_gen.py`, line for line: if `size_m` is set and either
dimension is truthy, take each dimension from it with the type default filling the
falsy one; otherwise fall through to the min-hints check; otherwise the table. -/
def size_for (room : Room) : ℚ × ℚ :=
  let rest :=
    if truthyQ room.min_width_m && truthyQ room.min_height_m then
      ((room.min_width_m).getD 0, (room.min_height_m).getD 0)
    else defaultSize room.rtype
  match room.size_m with
  | some sm =>
    if truthyQ sm.width_m || truthyQ sm.height_m then
      (qOr sm.width_m (defaultSize room.rtype).1, qOr sm.height_m (defaultSize room.rtype).2)
    else rest
  | none => rest

/-- An axis-aligned rectangle `(x, y, width, height)` in meters. -/
structure Rect where
  x : ℚ
  y : ℚ
  w : ℚ
  h : ℚ
deriving DecidableEq, Repr

/-- A Layout: insertion-ordered association list room id → rect (a Python dict). -/
abbrev Coords := List (String × Rect)

def keysOf (cs : Coords) : List String := cs.map Prod.fst

def valuesOf (cs : Coords) : List Rect := cs.map Prod.snd

/-- Dict read `cs[k]` (keys looked up are always present in the modelled code paths). -/
def getR (cs : Coords) (k : String) : Rect :=
  ((cs.find? (fun p => p.1 == k)).map Prod.snd).getD ⟨0, 0, 0, 0⟩

/-- Dict write `cs[k] = r`: update in place if present (keeping insertion order),
append otherwise. -/
def setk : Coords → String → Rect → Coords
  | [], k, r => [(k, r)]
  | p :: rest, k, r => if p.1 == k then (p.1, r) :: rest else p :: setk rest k r

/-- Area of the geometric intersection of two axis-aligned rectangles
(shapely's `box(...).intersection(...).area` for boxes). -/
def interArea (a b : Rect) : ℚ :=
  max 0 (min (a.x + a.w) (b.x + b.w) - max a.x b.x) *
    max 0 (min (a.y + a.h) (b.y + b.h) - max a.y b.y)

/-- Python `min` of a list (the empty-list default is never reached on the
modelled code paths; Python would raise there). -/
def qMin : List ℚ → ℚ
  | [] => 0
  | x :: xs => xs.foldl min x

/-- Python `max` of a list. -/
def qMax : List ℚ → ℚ
  | [] => 0
  | x :: xs => xs.foldl max x

/-- The x-coordinate sample list `[x, ...] + [x+w, ...]` used by `_bbox_area`,
`bounding` and `_bbox` in the source. -/
def xsOf (cs : Coords) : List ℚ :=
  (valuesOf cs).map Rect.x ++ (valuesOf cs).map (fun r => r.x + r.w)

def ysOf (cs : Coords) : List ℚ :=
  (valuesOf cs).map Rect.y ++ (valuesOf cs).map (fun r => r.y + r.h)

/-- `_bbox_area` from `layout_gen.py`. -/
def bbox_area_gen (cs : Coords) : ℚ :=
  (qMax (xsOf cs) - qMin (xsOf cs)) * (qMax (ysOf cs) - qMin (ysOf cs))

/-- The shared final shift: translate all rects so the bounding box's minimum
corner lands on `(0.2, 0.2)`.  Inlined both at the end of
`compact_snapping_layout` (`x - minx + 0.2`) and of `optimize_layout`
(`x + (-minx + 0.2)`) — identical in exact arithmetic. -/
def normalize (cs : Coords) : Coords :=
  let minx := qMin (xsOf cs)
  let miny := qMin (ysOf cs)
  cs.map (fun p => (p.1, Rect.mk (p.2.x - minx + 1/5) (p.2.y - miny + 1/5) p.2.w p.2.h))

/-! ## Case-insensitive substring matching (`adj.lower() in rr.type.lower()`) -/

/-- `s.lower()` as a character list. -/
def lowerStr (s : String) : List Char := s.data.map Char.toLower

/-- Character-list prefix test. -/
def isPrefixCh : List Char → List Char → Bool
  | [], _ => true
  | _ :: _, [] => false
  | a :: as_, b :: bs => a == b && isPrefixCh as_ bs

/-- Python's `needle in hay` contiguous-substring test on character lists. -/
def isSub (needle : List Char) : List Char → Bool
  | [] => needle.isEmpty
  | c :: rest => isPrefixCh needle (c :: rest) || isSub needle rest

/-- The fuzzy room-matching test of the graph builder (`layout_gen.py` line 47)
and of the pair-inference loop (`layout_optimize.py` line 95):
`adj.lower() in rr.type.lower() or adj.lower() in rr.id.lower()`. -/
def matchTok (adj : String) (rr : Room) : Bool :=
  isSub (lowerStr adj) (lowerStr rr.rtype) || isSub (lowerStr adj) (lowerStr rr.id)

/-! ## The adjacency graph (networkx `nx.Graph`)

A graph is its insertion-ordered adjacency map: node → neighbor list, both in
insertion order, exactly as networkx's dict-of-dicts represents it. -/

abbrev Graph := List (String × List String)

def nodesOf (g : Graph) : List String := g.map Prod.fst

def neighborsOf (g : Graph) (n : String) : List String :=
  ((g.find? (fun p => p.1 == n)).map Prod.snd).getD []

/-- `G.add_node n`: register the node if absent. -/
def add_node (g : Graph) (n : String) : Graph :=
  if g.any (fun p => p.1 == n) then g else g ++ [(n, [])]

/-- Append `b` to `a`'s neighbor list (once). -/
def adjAdd : Graph → String → String → Graph
  | [], a, b => [(a, [b])]
  | p :: rest, a, b =>
    if p.1 == a then (p.1, if p.2.contains b then p.2 else p.2 ++ [b]) :: rest
    else p :: adjAdd rest a b

/-- `G.add_edge a b`: networkx registers both endpoints as nodes, then records
the edge in both adjacency lists (once, when `a = b`). -/
def add_edge (g : Graph) (a b : String) : Graph :=
  adjAdd (adjAdd (add_node (add_node g a) b) a b) b a

/-- `G.degree[n]` for a networkx `Graph`: neighbor count, a self-loop counting
twice. -/
def degreeOf (g : Graph) (n : String) : Nat :=
  (neighborsOf g n).length + (if (neighborsOf g n).contains n then 1 else 0)

/-- The adjacency-graph construction of `compact_snapping_layout`
(`layout_gen.py` lines 40-55): one node per room, an edge `(r.id, rr.id)` for
every room `rr` whose type or id contains a preference token of `r`
(note: `rr` ranges over *all* rooms, `r` itself included), plus an edge for
every door pair whose endpoints are truthy strings and existing nodes. -/
def buildGraph (plan : Plan) : Graph :=
  let g0 : Graph := plan.rooms.foldl (fun g r => add_node g r.id) []
  let g1 := plan.rooms.foldl (fun g r =>
    r.preferred_adjacent.foldl (fun g adj =>
      plan.rooms.foldl (fun g rr =>
        if matchTok adj rr then add_edge g r.id rr.id else g) g) g) g0
  plan.doors.foldl (fun g d =>
    if d.1 != "" && d.2 != "" && g.any (fun p => p.1 == d.1) && g.any (fun p => p.1 == d.2)
    then add_edge g d.1 d.2 else g) g1

/-! ## BFS order (`list(nx.bfs_tree(G, root))`)

networkx's BFS discovers neighbors in adjacency order and the bfs tree lists
nodes in discovery order.  The loop is fueled; the fuel is amply sufficient
(every pop was first pushed, and at most `1 + Σ degree` pushes can happen), so
the fueled function computes the same list networkx produces. -/

def bfsLoop (g : Graph) : Nat → List String → List String → List String
  | 0, _, order => order
  | _ + 1, [], order => order
  | fuel + 1, u :: queue, order =>
    let newNbrs := (neighborsOf g u).filter (fun v => !(order.contains v))
    bfsLoop g fuel (queue ++ newNbrs) (order ++ newNbrs)

def bfsFuel (g : Graph) : Nat := g.length + (g.map (fun p => p.2.length)).sum + 1

def bfsOrder (g : Graph) (root : String) : List String :=
  bfsLoop g (bfsFuel g) [root] [root]

/-! ## The constructive placer (`compact_snapping_layout`) -/

/-- The error escaping the core on a zero-room Plan: Python's
`ValueError: max() arg is an empty sequence` raised by the root-selection
`max(plan.rooms, ...)` (there is no explicit `InvalidPlan` anywhere). -/
inductive CoreError where
  | emptyMax
deriving DecidableEq, Repr

/-- `next(r for r in plan.rooms if r.id == rid)` (the id is always found on the
modelled code paths). -/
def findRoom (plan : Plan) (rid : String) : Room :=
  (plan.rooms.find? (fun r => r.id == rid)).getD ⟨"", "", [], none, none, none⟩

/-- Root selection (`layout_gen.py` lines 57-64): the first room whose type
contains "living" (case-insensitive); otherwise the first room of maximal
resolved default area (Python's `max` keeps the first maximum). -/
def rootOf (plan : Plan) : Except CoreError String :=
  match plan.rooms.find? (fun r => isSub (lowerStr "living") (lowerStr r.rtype)) with
  | some r => .ok r.id
  | none =>
    match plan.rooms with
    | [] => .error .emptyMax
    | r0 :: rest =>
      .ok (rest.foldl (fun best r =>
        if (size_for r).1 * (size_for r).2 > (size_for best).1 * (size_for best).2
        then r else best) r0).id

/-- The `overlaps` helper (lines 78-83): a candidate box is rejected iff it
intersects some placed box with area strictly above `1e-6` (positive-area
intersection implies `intersects`, so the conjunction reduces to the area test). -/
def overlapsAny (cs : Coords) (r : Rect) : Bool :=
  (valuesOf cs).any (fun s => decide ((1 : ℚ)/1000000 < interArea r s))

/-- The four candidate sides, in the order of `cand_positions`. -/
inductive Side where
  | rightS
  | leftS
  | topS
  | bottomS
deriving DecidableEq, Repr

/-- `slide_steps` (line 102): `max(1, int((aw if side in ("right","left") else ah) / 0.5))`.
For a nonnegative argument Python's `int` truncation equals the floor; for a
negative one both sides collapse to `1` under the `max`. -/
def slide_steps (side : Side) (aw ah : ℚ) : Nat :=
  max 1 (Int.toNat ⌊(match side with
    | .rightS | .leftS => aw
    | .topS | .bottomS => ah) / (1/2)⌋)

/-- The candidate origin for slide index `s` out of `steps` (lines 104-122):
right/left candidates keep `x` at the touching position and slide `y`
(anchor-aligned when `steps = 1`, else centered offsets `(s - steps//2)*0.5`);
top/bottom candidates do the same with the roles of `x` and `y` swapped. -/
def slidePos (side : Side) (ax ay aw ah w h : ℚ) (steps : Nat) (s : Nat) : ℚ × ℚ :=
  match side with
  | .rightS =>
    (ax + aw,
     if steps = 1 then ay
     else ay + (ah - h)/2 + ((s : ℚ) - ((steps / 2 : Nat) : ℚ)) * (1/2))
  | .leftS =>
    (ax - w,
     if steps = 1 then ay
     else ay + (ah - h)/2 + ((s : ℚ) - ((steps / 2 : Nat) : ℚ)) * (1/2))
  | .topS =>
    ((if steps = 1 then ax
      else ax + (aw - w)/2 + ((s : ℚ) - ((steps / 2 : Nat) : ℚ)) * (1/2)),
     ay - h)
  | .bottomS =>
    ((if steps = 1 then ax
      else ax + (aw - w)/2 + ((s : ℚ) - ((steps / 2 : Nat) : ℚ)) * (1/2)),
     ay + ah)

/-- All slide candidates of one side, in slide order. -/
def side_cands (side : Side) (ax ay aw ah w h : ℚ) : List (ℚ × ℚ) :=
  (List.range (slide_steps side aw ah)).map
    (fun s => slidePos side ax ay aw ah w h (slide_steps side aw ah) s)

/-- The full candidate list of `find_best_placement_for`, sides in source order. -/
def cand_list (ax ay aw ah w h : ℚ) : List (ℚ × ℚ) :=
  [Side.rightS, Side.leftS, Side.topS, Side.bottomS].flatMap
    (fun side => side_cands side ax ay aw ah w h)

/-- `candidates.sort(key=area); candidates[0]`: Python's sort is stable, so the
result is the first candidate attaining the minimal bounding-box area. -/
def pickMinArea : List (ℚ × Rect) → Option Rect
  | [] => none
  | c :: rest => some (rest.foldl (fun best c' => if c'.1 < best.1 then c' else best) c).2

/-- `find_best_placement_for` (lines 86-135): enumerate the touching candidates
around the anchor, drop those overlapping a placed rect by more than `1e-6`,
and keep the first one minimizing the resulting bounding-box area. -/
def find_best_placement_for (plan : Plan) (cs : Coords) (node anchor : String) :
    Option Rect :=
  let wh := size_for (findRoom plan node)
  let a := getR cs anchor
  let valid := (cand_list a.x a.y a.w a.h wh.1 wh.2).filterMap (fun xy =>
    let r : Rect := ⟨xy.1, xy.2, wh.1, wh.2⟩
    if overlapsAny cs r then none
    else some (bbox_area_gen (setk cs node r), r))
  pickMinArea valid

/-- Stable insertion of `a` into a list already sorted by descending degree. -/
def insertByDeg (g : Graph) (a : String) : List String → List String
  | [] => [a]
  | b :: bs => if degreeOf g a ≥ degreeOf g b then a :: b :: bs else b :: insertByDeg g a bs

/-- `anchors.sort(key=lambda a: -G.degree[a])`: stable descending-degree sort. -/
def sortByDegDesc (g : Graph) (l : List String) : List String :=
  l.foldr (insertByDeg g) []

/-- `for a in anchors: ... if place: break` — try anchors in order, first hit wins. -/
def tryAnchors (plan : Plan) (cs : Coords) (node : String) : List String → Option Rect
  | [] => none
  | a :: rest =>
    match find_best_placement_for plan cs node a with
    | some r => some r
    | none => tryAnchors plan cs node rest

/-- The guaranteed fallback (lines 155-163): place the room `0.5` to the right
of the rightmost placed edge, at `y = 0`. -/
def fallbackRect (plan : Plan) (cs : Coords) (node : String) : Rect :=
  let maxx := qMax ((valuesOf cs).map (fun c => c.x + c.w))
  let wh := size_for (findRoom plan node)
  ⟨maxx + 1/2, 0, wh.1, wh.2⟩

/-- The BFS-order placement loop (lines 137-163). -/
def placeLoop (plan : Plan) (g : Graph) : List String → Coords → Coords
  | [], cs => cs
  | node :: rest, cs =>
    if (keysOf cs).contains node then placeLoop plan g rest cs
    else
      match tryAnchors plan cs node (sortByDegDesc g ((neighborsOf g node).filter
          (fun n => (keysOf cs).contains n))) with
      | some r => placeLoop plan g rest (cs ++ [(node, r)])
      | none => placeLoop plan g rest (cs ++ [(node, fallbackRect plan cs node)])

/-- `compact_snapping_layout` (`layout_gen.py` lines 34-177): build the graph,
pick the root, place it at the origin, place the BFS-reachable rooms in BFS
order, then shift the result so the bounding box's minimum corner is `(0.2, 0.2)`. -/
def compact_snapping_layout (plan : Plan) : Except CoreError Coords :=
  let g := buildGraph plan
  match rootOf plan with
  | .error e => .error e
  | .ok root =>
    let wh := size_for (findRoom plan root)
    let cs0 : Coords := [(root, ⟨0, 0, wh.1, wh.2⟩)]
    let placed := placeLoop plan g (bfsOrder g root) cs0
    .ok (normalize placed)

/-! ## The cost model and the annealer (`layout_optimize.py`) -/

/-- The weight dictionary built in `optimize_layout` (line 99). -/
structure Weights where
  overlap_w : ℚ
  adj_w : ℚ
  area_w : ℚ
  aspect_w : ℚ
deriving DecidableEq, Repr

def weightsUsed : Weights := ⟨100, 2/10, 1, 1/2⟩

/-- Sum of `interArea r r'` over `r'` in the list. -/
def overlapRow (r : Rect) : List Rect → ℚ
  | [] => 0
  | r' :: rest => interArea r r' + overlapRow r rest

/-- `total_overlap_area` (lines 17-30): the sum of pairwise intersection areas
over all unordered pairs, accumulated in id order. -/
def sumPairs : List Rect → ℚ
  | [] => 0
  | r :: rest => overlapRow r rest + sumPairs rest

def total_overlap_area (cs : Coords) : ℚ := sumPairs (valuesOf cs)

/-- `adjacency_distance_cost` (lines 32-45): summed center distances over the
pair list, skipping pairs with a missing id.  `hyp` abstracts `math.hypot`. -/
def adjacency_distance_cost (hyp : ℚ → ℚ → ℚ) (cs : Coords)
    (pairs : List (String × String)) : ℚ :=
  pairs.foldl (fun total ab =>
    match (cs.find? (fun p => p.1 == ab.1)).map Prod.snd,
          (cs.find? (fun p => p.1 == ab.2)).map Prod.snd with
    | some A, some B =>
      total + hyp (A.x + A.w/2 - (B.x + B.w/2)) (A.y + A.h/2 - (B.y + B.h/2))
    | _, _ => total) 0

/-- `bbox_area` (lines 13-15): bounding-box area clamped below by `0.0001`. -/
def bbox_area_opt (cs : Coords) : ℚ :=
  max (1/10000) ((qMax (xsOf cs) - qMin (xsOf cs)) * (qMax (ysOf cs) - qMin (ysOf cs)))

/-- `aspect_ratio_penalty` (lines 47-53) with the default ideal ratio `1.5`. -/
def aspect_ratio_penalty (cs : Coords) : ℚ :=
  (valuesOf cs).foldl (fun penalty r =>
    penalty + max 0 (max (if 0 < r.h then r.w / r.h else 1000000)
                         (if 0 < r.w then r.h / r.w else 1000000) - 3/2)) 0

/-- `cost_fn` (lines 55-61). -/
def cost_fn (hyp : ℚ → ℚ → ℚ) (cs : Coords) (pairs : List (String × String))
    (weights : Weights) : ℚ :=
  weights.overlap_w * total_overlap_area cs
    + weights.adj_w * adjacency_distance_cost hyp cs pairs
    + weights.area_w * bbox_area_opt cs
    + weights.aspect_w * aspect_ratio_penalty cs

/-- `random.choice` index: `⌊u * n⌋` clamped into range. -/
def choiceIdx (u : ℚ) (n : Nat) : Nat := min (Int.toNat ⌊u * n⌋) (n - 1)

/-- `_random_neighbor` (lines 63-75): pick a uniformly random room, translate it
by `uniform(-max_shift, max_shift)` on each axis (sizes untouched).  Returns the
new layout together with the advanced draw counter (three draws consumed). -/
def _random_neighbor (u : ℕ → ℚ) (k : ℕ) (cs : Coords) (room_ids : List String)
    (max_shift : ℚ) : Coords × ℕ :=
  let rid := room_ids.getD (choiceIdx (u k) room_ids.length) ""
  let r := getR cs rid
  let dx := -max_shift + (max_shift - -max_shift) * u (k + 1)
  let dy := -max_shift + (max_shift - -max_shift) * u (k + 2)
  (setk cs rid ⟨r.x + dx, r.y + dy, r.w, r.h⟩, k + 3)

/-- The annealer's mutable state: `current`/`best` layouts with their costs,
plus the RNG draw counter. -/
structure OptState where
  current : Coords
  current_cost : ℚ
  best : Coords
  best_cost : ℚ
  rk : ℕ
deriving DecidableEq, Repr

/-- The four snap positions of `rid` against every other room, in source order
(lines 127-136): left, right, top, bottom of each `nid`, origin-aligned. -/
def snap_positions (cs : Coords) (room_ids : List String) (rid : String)
    (aw ah : ℚ) : List (ℚ × ℚ) :=
  (room_ids.filter (fun nid => !(nid == rid))).flatMap (fun nid =>
    let b := getR cs nid
    [(b.x - aw, b.y), (b.x + b.w, b.y), (b.x, b.y - ah), (b.x, b.y + b.h)])

/-- One room's greedy snap (lines 121-149): evaluate the cost of every snap
position, keep the strictly best one, and apply it only if it strictly improves
the current cost (updating `best` when it also beats the best cost). -/
def snap_room (hyp : ℚ → ℚ → ℚ) (pairs : List (String × String))
    (room_ids : List String) (st : OptState) (rid : String) : OptState :=
  let a := getR st.current rid
  let best_snap := (snap_positions st.current room_ids rid a.w a.h).foldl
    (fun acc txy =>
      let c := cost_fn hyp (setk st.current rid ⟨txy.1, txy.2, a.w, a.h⟩) pairs weightsUsed
      match acc with
      | none => some (txy, c)
      | some pc => if c < pc.2 then some (txy, c) else acc) none
  match best_snap with
  | none => st
  | some (txy, bc) =>
    if bc < st.current_cost then
      let cur' := setk st.current rid ⟨txy.1, txy.2, a.w, a.h⟩
      if bc < st.best_cost then ⟨cur', bc, cur', bc, st.rk⟩
      else ⟨cur', bc, st.best, st.best_cost, st.rk⟩
    else st

/-- Acceptance of a candidate (lines 113-117): `current` becomes the candidate
with its cost, and `best` is updated exactly when the candidate cost beats the
best cost; `k` is the advanced draw counter. -/
def opt_accept (cand : Coords) (cand_cost : ℚ) (k : ℕ) (st : OptState) : OptState :=
  if cand_cost < st.best_cost then ⟨cand, cand_cost, cand, cand_cost, k⟩
  else ⟨cand, cand_cost, st.best, st.best_cost, k⟩

/-- The random-move-and-acceptance part of one annealing iteration `it`
(lines 106-117): linear-cooling temperature, one random neighbor, Metropolis
acceptance.  Python's `if delta < 0 or random.random() < math.exp(...)`
short-circuits, so the acceptance draw is consumed only when `delta ≥ 0`;
`expQ` abstracts `math.exp`. -/
def opt_move (hyp : ℚ → ℚ → ℚ) (expQ : ℚ → ℚ) (u : ℕ → ℚ)
    (pairs : List (String × String)) (room_ids : List String)
    (iterations it : ℕ) (st : OptState) : OptState :=
  let T : ℚ := 1 * (1 - (it : ℚ) / (iterations : ℚ))
  let ck := _random_neighbor u st.rk st.current room_ids (8/10)
  let cand_cost := cost_fn hyp ck.1 pairs weightsUsed
  let delta := cand_cost - st.current_cost
  if delta < 0 then opt_accept ck.1 cand_cost ck.2 st
  else if u ck.2 < expQ (-delta / max (1/1000000) T) then
    opt_accept ck.1 cand_cost (ck.2 + 1) st
  else { st with rk := ck.2 + 1 }

/-- One full annealing iteration (lines 106-149): the random move and
acceptance, then the greedy snap sweep every 200th iteration (the sweep draws
no randomness). -/
def opt_step (hyp : ℚ → ℚ → ℚ) (expQ : ℚ → ℚ) (u : ℕ → ℚ)
    (pairs : List (String × String)) (room_ids : List String)
    (iterations it : ℕ) (st : OptState) : OptState :=
  if it % 200 = 0 then
    room_ids.foldl (snap_room hyp pairs room_ids)
      (opt_move hyp expQ u pairs room_ids iterations it st)
  else opt_move hyp expQ u pairs room_ids iterations it st

/-- The pair-inference loop of `optimize_layout` (lines 89-96), run when the
caller passes no adjacency pairs. -/
def inferPairs (plan : Plan) : List (String × String) :=
  plan.rooms.foldl (fun ps r =>
    r.preferred_adjacent.foldl (fun ps adj =>
      plan.rooms.foldl (fun ps rr =>
        if matchTok adj rr then ps ++ [(r.id, rr.id)] else ps) ps) ps) []

/-- `optimize_layout` (`layout_optimize.py` lines 77-159).  The stream
`u : ℕ → ℚ` of unit draws models the Mersenne-Twister sequence determined by
`random.seed(seed)`; `hyp` and `expQ` abstract `math.hypot` and `math.exp`. -/
def optimize_layout (hyp : ℚ → ℚ → ℚ) (expQ : ℚ → ℚ) (u : ℕ → ℚ)
    (initial_coords : Coords) (plan : Plan)
    (adjacency_pairs : Option (List (String × String))) (iterations : ℕ) : Coords :=
  let current := initial_coords
  let room_ids := keysOf current
  let pairs := match adjacency_pairs with
    | some ps => ps
    | none => inferPairs plan
  let c0 := cost_fn hyp current pairs weightsUsed
  let st0 : OptState := ⟨current, c0, current, c0, 0⟩
  let stN := (List.range iterations).foldl
    (fun st it => opt_step hyp expQ u pairs room_ids iterations it st) st0
  normalize stN.best

end FloorPlan

namespace FloorPlan

/-! ## Concrete inputs used by the claim theorems, witnesses and counterexamples -/

/-- A room with only an id and a type (no explicit sizes, no preferences). -/
def plainRoom (i t : String) : Room := ⟨i, t, [], none, none, none⟩

/-- Two rooms of the same type with no adjacency preferences and no doors:
their graph has two isolated nodes. -/
def planTwoIso : Plan := ⟨[plainRoom "ra" "Office", plainRoom "rb" "Office"], []⟩

/-- A plan whose single preference token matches the room's own type. -/
def planSelf : Plan := ⟨[⟨"k1", "Kitchen", ["kitchen"], none, none, none⟩], []⟩

/-- A room with an explicit size carrying only a width, and both minimum-size
hints present. -/
def roomHalfSize : Room := ⟨"s1", "Studio", [], some ⟨some 7, none⟩, some 2, some 2⟩

/-- A living room preferring the kitchen, and a kitchen: the placement witness
plan (connected graph). -/
def planLivKit : Plan := ⟨[⟨"a", "Living Room", ["kit"], none, none, none⟩,
                          plainRoom "b" "Kitchen"], []⟩

/-- The zero-room plan. -/
def planEmpty : Plan := ⟨[], []⟩

/-- A U-shaped cavity for the annealer counterexample: two tall side walls `L`
and `R` 5.89 apart, a bottom bar `Bo`, and a `5.9 × 5.9` square `c` parked on
the top-left.  The cavity between the walls is `0.01` narrower than `c`. -/
def initCavity : Coords :=
  [("L", ⟨0, 0, 2, 17⟩), ("Bo", ⟨2, 0, 589/100, 2⟩),
   ("R", ⟨789/100, 0, 2, 17⟩), ("c", ⟨0, 17, 59/10, 59/10⟩)]

/-- One annealing pass on the cavity layout with no adjacency pairs, the
constant-stream RNG `u = 1/2` (whose first move is the identity translation of
`R`), and `math.exp` instantiated at the only value it is called at
(`exp 0 = 1`).  The `it = 0` greedy snap sweep tucks `c` into the too-narrow
cavity, accepting a `0.059 m²` overlap with `R` because the bounding-box gain
dwarfs the weighted overlap penalty. -/
def outCavity : Coords :=
  optimize_layout (fun _ _ => 0) (fun _ => 1) (fun _ => 1/2) initCavity planEmpty
    (some []) 1

/-- Pairwise non-overlap of a layout: every unordered pair of distinct rects
intersects with area at most `1e-6 m²` (the spec's epsilon). -/
def PairwiseNonOverlap (cs : Coords) : Prop :=
  List.Pairwise (fun a b => interArea a b ≤ 1/1000000) (valuesOf cs)

instance (cs : Coords) : Decidable (PairwiseNonOverlap cs) := by
  unfold PairwiseNonOverlap; infer_instance

/-- The Size Resolver as claim C4 states it: the explicit size only when both
dimensions are present (truthy), else the minimum hints when both are present,
else the type table (with the `(3.5, 3.0)` fallback, both bundled in
`defaultSize`). -/
def size_for_spec (room : Room) : ℚ × ℚ :=
  let explicit : Option (ℚ × ℚ) :=
    room.size_m.bind (fun sm =>
      match sm.width_m, sm.height_m with
      | some w, some h => if w ≠ 0 ∧ h ≠ 0 then some (w, h) else none
      | _, _ => none)
  match explicit with
  | some wh => wh
  | none =>
    match room.min_width_m, room.min_height_m with
    | some mw, some mh =>
      if mw ≠ 0 ∧ mh ≠ 0 then (mw, mh) else defaultSize room.rtype
    | _, _ => defaultSize room.rtype

/-- The Size Resolver as amended: an explicit size takes priority as soon as at
least one of its dimensions is truthy, the missing dimension falling back to
the type default; only then minimum hints (both required); then the table. -/
def size_for_amended (room : Room) : ℚ × ℚ :=
  let d := defaultSize room.rtype
  let mins :=
    if truthyQ room.min_width_m && truthyQ room.min_height_m then
      ((room.min_width_m).getD 0, (room.min_height_m).getD 0)
    else d
  match room.size_m with
  | some sm =>
    if truthyQ sm.width_m || truthyQ sm.height_m then
      (qOr sm.width_m d.1, qOr sm.height_m d.2)
    else mins
  | none => mins

/-- The key-and-size skeleton of a layout: what the annealer must preserve. -/
def sizesOf (cs : Coords) : List (String × ℚ × ℚ) :=
  cs.map (fun p => (p.1, p.2.w, p.2.h))

/-- `b` is recorded as a neighbor of `a` in the graph. -/
def EdgeIn (g : Graph) (a b : String) : Prop :=
  (neighborsOf g a).contains b = true

/-- All adjacency lists of a graph are duplicate-free (true of every graph the
builder produces; needed for the BFS order to be duplicate-free). -/
def GraphWF (g : Graph) : Prop := ∀ p ∈ g, p.2.Nodup

/-- Translation of a rect by the vector `(t, s)` (proof vocabulary for the
common shift the Normalizer applies). -/
def translateR (t s : ℚ) (r : Rect) : Rect := ⟨r.x + t, r.y + s, r.w, r.h⟩

/-- Translation of a whole layout by one common vector. -/
def translateCs (t s : ℚ) (cs : Coords) : Coords :=
  cs.map (fun p => (p.1, translateR t s p.2))

/-- The state skeleton the annealer must preserve (claim C9): the key list and
every room's width and height, in `current` and in `best`. -/
def SkInv (init : Coords) (st : OptState) : Prop :=
  sizesOf st.current = sizesOf init ∧ sizesOf st.best = sizesOf init

/-- The cost bookkeeping invariant of the annealer (claim C2): `best_cost` is
the true cost of `best` and never exceeds the bound `C0`. -/
def CostInv (hyp : ℚ → ℚ → ℚ) (pairs : List (String × String)) (C0 : ℚ)
    (st : OptState) : Prop :=
  st.best_cost = cost_fn hyp st.best pairs weightsUsed ∧ st.best_cost ≤ C0

end FloorPlan

namespace FloorPlan

section DecideEval
attribute [local semireducible] Rat.add Rat.mul Rat.sub Rat.inv

/-- C1 (counterexample): a two-room Plan whose rooms are not connected to the
root yields a Layout with a rect for the root only — the second room id is
missing, refuting "exactly one rect for every room id in the Plan". -/
theorem c1_counterexample :
    planTwoIso.rooms.map Room.id = ["ra", "rb"] ∧
    (compact_snapping_layout planTwoIso).map keysOf = .ok ["ra"] := by
  constructor
  · rfl
  · rfl

/-- C2 (counterexample): starting from the pairwise non-overlapping cavity
layout, one iteration of `optimize_layout` (empty adjacency-pair list, seed
stream `u ≡ 1/2`) returns a Layout in which rooms `c` and `R` intersect with
area `0.059 m² > 1e-6 m²`: the greedy snap sweep trades a small overlap for a
large bounding-box gain, so the annealer's output is not non-overlapping. -/
theorem c2_counterexample :
    PairwiseNonOverlap initCavity ∧
    interArea (getR outCavity "c") (getR outCavity "R") = 59/1000 ∧
    ¬ PairwiseNonOverlap outCavity := by
  refine ⟨by decide, by decide, by decide⟩

/-- C4 (counterexample): a room whose explicit size carries only a width (7)
while both minimum hints are present (2 × 2).  The code resolves it to
`(7, 3.0)` — the half-present explicit size takes priority, the missing height
coming from the fallback — whereas the claimed cascade resolves it to `(2, 2)`. -/
theorem c4_counterexample :
    size_for roomHalfSize = (7, 3) ∧
    size_for_spec roomHalfSize = (2, 2) ∧
    size_for roomHalfSize ≠ size_for_spec roomHalfSize := by
  refine ⟨by decide, by decide, by decide⟩

/-- C5 (counterexample): for an anchor of width 1 and height 3, the right-side
slide uses `max(1, ⌊width/0.5⌋) = 2` steps, not the claimed
`max(1, ⌊height/0.5⌋) = 6`; and for an anchor of width 0.4 and height 3 with a
1 × 1 candidate, the single right-side candidate sits at the anchor's own `y`
(here `(0.4, 0)`), not centered on the anchor's vertical center (`y = 1`). -/
theorem c5_counterexample :
    slide_steps .rightS 1 3 = 2 ∧
    max 1 (Int.toNat ⌊(3 : ℚ) / (1/2)⌋) = 6 ∧
    slide_steps .rightS 1 3 ≠ max 1 (Int.toNat ⌊(3 : ℚ) / (1/2)⌋) ∧
    side_cands .rightS 0 0 (2/5) 3 1 1 = [(2/5, 0)] ∧
    side_cands .rightS 0 0 (2/5) 3 1 1 ≠ [(2/5, 0 + (3 - 1)/2)] := by
  refine ⟨by decide, by decide, by decide, by decide, by decide⟩

/-- C6 (counterexample): the room `k1` of type `Kitchen` with preference token
`"kitchen"` matches itself, so the built graph records the self-loop edge
`(k1, k1)` — refuting "the resulting graph never contains a self-loop edge". -/
theorem c6_counterexample :
    (neighborsOf (buildGraph planSelf) "k1").contains "k1" = true := by decide

/-- C7 (counterexample): the zero-room Plan is not rejected with an explicit
`InvalidPlan` error; the core runs until root selection, where Python's
`max(plan.rooms, ...)` raises the generic empty-sequence `ValueError`
(modelled by `CoreError.emptyMax`; no `InvalidPlan` exists in the code). -/
theorem c7_counterexample :
    compact_snapping_layout planEmpty = .error .emptyMax := rfl

end DecideEval

/-! ## Shared helper lemmas -/

theorem qMin_foldl_add (t : ℚ) :
    ∀ (l : List ℚ) (a : ℚ),
      (l.map (fun q => q + t)).foldl min (a + t) = l.foldl min a + t := by
  intro l
  induction l with
  | nil => intro a; rfl
  | cons b l ih =>
    intro a
    simp only [List.map_cons, List.foldl_cons, min_add_add_right]
    exact ih (min a b)

theorem qMin_map_add (t : ℚ) (l : List ℚ) (hl : l ≠ []) :
    qMin (l.map (fun q => q + t)) = qMin l + t := by
  cases l with
  | nil => exact absurd rfl hl
  | cons a l => simpa [qMin] using qMin_foldl_add t l a

theorem map_add_of_comp {α : Type} {f g : α → ℚ} (t : ℚ) :
    ∀ {l : List α}, (∀ r ∈ l, f r = g r + t) →
      l.map f = (l.map g).map (fun q => q + t) := by
  intro l
  induction l with
  | nil => intro _; rfl
  | cons a l ih =>
    intro h
    simp only [List.map_cons]
    rw [h a (List.mem_cons_self a l)]
    exact congrArg _ (ih (fun r hr => h r (List.mem_cons_of_mem a hr)))

theorem normalize_eq_translate (cs : Coords) :
    normalize cs = translateCs (1/5 - qMin (xsOf cs)) (1/5 - qMin (ysOf cs)) cs := by
  unfold normalize translateCs translateR
  apply List.map_congr_left
  rintro ⟨k, x, y, w, h⟩ _
  have hx : x - qMin (xsOf cs) + 1/5 = x + (1/5 - qMin (xsOf cs)) := by ring
  have hy : y - qMin (ysOf cs) + 1/5 = y + (1/5 - qMin (ysOf cs)) := by ring
  rw [hx, hy]

theorem keysOf_translate (t s : ℚ) (cs : Coords) :
    keysOf (translateCs t s cs) = keysOf cs := by
  simp [translateCs, keysOf, List.map_map]

theorem sizesOf_translate (t s : ℚ) (cs : Coords) :
    sizesOf (translateCs t s cs) = sizesOf cs := by
  simp only [translateCs, sizesOf, List.map_map]
  apply List.map_congr_left
  intro p _
  rfl

theorem valuesOf_translate (t s : ℚ) (cs : Coords) :
    valuesOf (translateCs t s cs) = (valuesOf cs).map (translateR t s) := by
  simp [translateCs, valuesOf, List.map_map]

theorem xsOf_translate (t s : ℚ) (cs : Coords) :
    xsOf (translateCs t s cs) = (xsOf cs).map (fun q => q + t) := by
  unfold xsOf
  rw [valuesOf_translate, List.map_map, List.map_map, List.map_append]
  congr 1
  · exact map_add_of_comp _ (fun r _ => rfl)
  · exact map_add_of_comp _ (fun r _ => by
      simp only [Function.comp_apply, translateR]
      ring)

theorem ysOf_translate (t s : ℚ) (cs : Coords) :
    ysOf (translateCs t s cs) = (ysOf cs).map (fun q => q + s) := by
  unfold ysOf
  rw [valuesOf_translate, List.map_map, List.map_map, List.map_append]
  congr 1
  · exact map_add_of_comp _ (fun r _ => rfl)
  · exact map_add_of_comp _ (fun r _ => by
      simp only [Function.comp_apply, translateR]
      ring)

theorem xsOf_ne_nil {cs : Coords} (h : cs ≠ []) : xsOf cs ≠ [] := by
  cases cs with
  | nil => exact absurd rfl h
  | cons p cs => simp [xsOf, valuesOf]

theorem ysOf_ne_nil {cs : Coords} (h : cs ≠ []) : ysOf cs ≠ [] := by
  cases cs with
  | nil => exact absurd rfl h
  | cons p cs => simp [ysOf, valuesOf]

theorem qMin_xsOf_normalize {cs : Coords} (h : cs ≠ []) :
    qMin (xsOf (normalize cs)) = 1/5 := by
  rw [normalize_eq_translate, xsOf_translate, qMin_map_add _ _ (xsOf_ne_nil h)]
  ring

theorem qMin_ysOf_normalize {cs : Coords} (h : cs ≠ []) :
    qMin (ysOf (normalize cs)) = 1/5 := by
  rw [normalize_eq_translate, ysOf_translate, qMin_map_add _ _ (ysOf_ne_nil h)]
  ring

/-- A common translation does not change the intersection area of two rects. -/
theorem interArea_translate (t s : ℚ) (a b : Rect) :
    interArea (translateR t s a) (translateR t s b) = interArea a b := by
  unfold interArea translateR
  have ex : a.x + t + a.w = (a.x + a.w) + t := by ring
  have ex' : b.x + t + b.w = (b.x + b.w) + t := by ring
  have ey : a.y + s + a.h = (a.y + a.h) + s := by ring
  have ey' : b.y + s + b.h = (b.y + b.h) + s := by ring
  simp only [ex, ex', ey, ey', min_add_add_right, max_add_add_right]
  ring_nf

/-! ## Claim theorems: C4, C5, C7, C10 -/

/-- C4 (amended): the Size Resolver prefers the explicit size as soon as at
least one of its dimensions is truthy (the missing dimension falling back to
the type default), then both minimum hints, then the table/fallback; in
particular an explicit size with only a nonzero width `w` resolves to
`(w, default height for the type)`. -/
theorem c4_amended (room : Room) :
    size_for room = size_for_amended room ∧
    (∀ w : ℚ, room.size_m = some ⟨some w, none⟩ → w ≠ 0 →
      size_for room = (w, (defaultSize room.rtype).2)) := by
  constructor
  · unfold size_for size_for_amended
    cases room.size_m <;> rfl
  · intro w hsm hw
    simp [size_for, hsm, truthyQ, qOr, hw]

/-- C4 (witness). -/
theorem c4_witness :
    size_for roomHalfSize = size_for_amended roomHalfSize ∧
    size_for roomHalfSize = (7, (defaultSize roomHalfSize.rtype).2) :=
  ⟨(c4_amended roomHalfSize).1, (c4_amended roomHalfSize).2 7 rfl (by decide)⟩

/-- C5 (amended): on the right (and left) side the Constructive Placer slides
with `max(1, ⌊anchor_width/0.5⌋)` candidates (anchor width, not height; on
top/bottom it is the anchor height); with a single step the candidate is
aligned to the anchor's own `y` (not centered); with several steps the `y`
values are `center + (s - steps//2)·0.5`, which is symmetric around the center
only for odd step counts. -/
theorem c5_amended (ax ay aw ah w h : ℚ) :
    (side_cands .rightS ax ay aw ah w h).length = max 1 (Int.toNat ⌊aw / (1/2)⌋) ∧
    (side_cands .topS ax ay aw ah w h).length = max 1 (Int.toNat ⌊ah / (1/2)⌋) ∧
    (slide_steps .rightS aw ah = 1 →
      side_cands .rightS ax ay aw ah w h = [(ax + aw, ay)]) ∧
    (∀ s : ℕ, 1 < slide_steps .rightS aw ah → s < slide_steps .rightS aw ah →
      (side_cands .rightS ax ay aw ah w h).getD s (0, 0) =
        (ax + aw, ay + (ah - h)/2 +
          ((s : ℚ) - ((slide_steps .rightS aw ah / 2 : ℕ) : ℚ)) * (1/2))) := by
  refine ⟨?_, ?_, ?_, ?_⟩
  · simp [side_cands, slide_steps]
  · simp [side_cands, slide_steps]
  · intro h1
    simp [side_cands, h1, slidePos]
  · intro s h1 hs
    have hlen : s < (side_cands .rightS ax ay aw ah w h).length := by
      simpa [side_cands] using hs
    rw [List.getD_eq_getElem _ _ hlen]
    simp [side_cands, slidePos, Nat.ne_of_gt h1]

/-- C5 (witness). -/
theorem c5_witness :
    (side_cands .rightS 0 0 1 3 1 1).getD 0 (0, 0) =
      (0 + 1, 0 + (3 - 1)/2 + ((0 : ℚ) - ((slide_steps .rightS 1 3 / 2 : ℕ) : ℚ)) * (1/2)) := by
  have h2 : slide_steps .rightS 1 3 = 2 := by
    show max 1 (Int.toNat ⌊(1 : ℚ) / (1/2)⌋) = 2
    norm_num
    rfl
  exact (c5_amended 0 0 1 3 1 1).2.2.2 0 (by rw [h2]; exact one_lt_two) (by rw [h2]; exact two_pos)

/-- C7 (amended): an empty Plan is not rejected with an explicit `InvalidPlan`
error — root selection fails with the generic empty-sequence error of `max()`
— while every Plan with at least one room makes the Constructive Placer (and
the Annealer, a total function in this embedding) return a Layout. -/
theorem rootOf_ok (plan : Plan) (hne : plan.rooms ≠ []) :
    ∃ root, rootOf plan = .ok root := by
  unfold rootOf
  cases hfind : plan.rooms.find? (fun r => isSub (lowerStr "living") (lowerStr r.rtype)) with
  | some r => exact ⟨r.id, rfl⟩
  | none =>
    cases hrooms : plan.rooms with
    | nil => exact absurd hrooms hne
    | cons r0 rest => exact ⟨_, rfl⟩

theorem c7_amended (plan : Plan) (hne : plan.rooms ≠ []) :
    (compact_snapping_layout plan).isOk = true := by
  obtain ⟨root, hroot⟩ := rootOf_ok plan hne
  unfold compact_snapping_layout
  rw [hroot]
  simp [Except.isOk, Except.toBool]

/-- C7 (witness). -/
theorem c7_witness : (compact_snapping_layout planLivKit).isOk = true :=
  c7_amended planLivKit (by decide)

/-- C10: the Normalizer translates every rect by one common vector so that the
minimum `x` and the minimum `y` over all rects both become the margin `0.2`,
and it is idempotent on nonempty layouts (in exact arithmetic). -/
theorem c10_normalizer (cs : Coords) (h : cs ≠ []) :
    qMin (xsOf (normalize cs)) = 1/5 ∧ qMin (ysOf (normalize cs)) = 1/5 ∧
    normalize (normalize cs) = normalize cs := by
  refine ⟨qMin_xsOf_normalize h, qMin_ysOf_normalize h, ?_⟩
  conv_lhs => rw [normalize]
  rw [qMin_xsOf_normalize h, qMin_ysOf_normalize h]
  have : ∀ p ∈ normalize cs,
      (p.1, Rect.mk (p.2.x - 1/5 + 1/5) (p.2.y - 1/5 + 1/5) p.2.w p.2.h) = p := by
    rintro ⟨k, x, y, w, hgt⟩ _
    have hx : x - 1/5 + 1/5 = x := by ring
    have hy : y - 1/5 + 1/5 = y := by ring
    simp [hx, hy]
  calc (normalize cs).map
        (fun p => (p.1, Rect.mk (p.2.x - 1/5 + 1/5) (p.2.y - 1/5 + 1/5) p.2.w p.2.h))
      = (normalize cs).map id := List.map_congr_left this
    _ = normalize cs := List.map_id _

/-! ## C3: the Constructive Placer's output is pairwise non-overlapping -/

theorem le_foldl_max_init : ∀ (l : List ℚ) (a : ℚ), a ≤ l.foldl max a := by
  intro l
  induction l with
  | nil => intro a; exact le_refl a
  | cons b l ih => intro a; exact le_trans (le_max_left a b) (ih (max a b))

theorem le_foldl_max_mem : ∀ (l : List ℚ) (a x : ℚ), x ∈ l → x ≤ l.foldl max a := by
  intro l
  induction l with
  | nil => intro a x hx; cases hx
  | cons b l ih =>
    intro a x hx
    rcases List.mem_cons.1 hx with h | h
    · subst h
      exact le_trans (le_max_right a x) (le_foldl_max_init l (max a x))
    · exact ih (max a b) x h

theorem le_qMax {l : List ℚ} {x : ℚ} (h : x ∈ l) : x ≤ qMax l := by
  cases l with
  | nil => cases h
  | cons a l =>
    rcases List.mem_cons.1 h with h | h
    · subst h
      exact le_foldl_max_init l x
    · exact le_foldl_max_mem l a x h

/-- The fallback rect starts `0.5` beyond every placed right edge, so it meets
no placed rect at all (zero intersection area). -/
theorem interArea_fallback (plan : Plan) (cs : Coords) (node : String) :
    ∀ s ∈ valuesOf cs, interArea s (fallbackRect plan cs node) = 0 := by
  intro s hs
  unfold interArea fallbackRect
  have h1 : s.x + s.w ≤ qMax ((valuesOf cs).map (fun c => c.x + c.w)) :=
    le_qMax (List.mem_map_of_mem _ hs)
  have h2 : min (s.x + s.w)
      (qMax ((valuesOf cs).map (fun c => c.x + c.w)) + 1/2 + (size_for (findRoom plan node)).1)
      ≤ s.x + s.w := min_le_left _ _
  have h3 : qMax ((valuesOf cs).map (fun c => c.x + c.w)) + 1/2 ≤
      max s.x (qMax ((valuesOf cs).map (fun c => c.x + c.w)) + 1/2) := le_max_right _ _
  have h4 : min (s.x + s.w)
      (qMax ((valuesOf cs).map (fun c => c.x + c.w)) + 1/2 + (size_for (findRoom plan node)).1)
      - max s.x (qMax ((valuesOf cs).map (fun c => c.x + c.w)) + 1/2) ≤ 0 := by linarith
  rw [max_eq_left h4, zero_mul]

theorem foldl_pick_mem : ∀ (l : List (ℚ × Rect)) (c : ℚ × Rect),
    l.foldl (fun best c' => if c'.1 < best.1 then c' else best) c ∈ c :: l := by
  intro l
  induction l with
  | nil => intro c; exact List.mem_singleton.2 rfl
  | cons d l ih =>
    intro c
    simp only [List.foldl_cons]
    rcases List.mem_cons.1 (ih (if d.1 < c.1 then d else c)) with h | h
    · rw [h]
      split
      · exact List.mem_cons_of_mem _ (List.mem_cons_self _ _)
      · exact List.mem_cons_self _ _
    · exact List.mem_cons_of_mem _ (List.mem_cons_of_mem _ h)

theorem pickMinArea_mem {l : List (ℚ × Rect)} {r : Rect}
    (h : pickMinArea l = some r) : ∃ a, (a, r) ∈ l := by
  cases l with
  | nil => cases h
  | cons c rest =>
    refine ⟨(rest.foldl (fun best c' => if c'.1 < best.1 then c' else best) c).1, ?_⟩
    have hr : r = (rest.foldl (fun best c' => if c'.1 < best.1 then c' else best) c).2 := by
      have := h
      unfold pickMinArea at this
      exact (Option.some.injEq _ _ ▸ this.symm :)
    rw [hr]
    simpa using foldl_pick_mem rest c

theorem overlapsAny_false_sep {cs : Coords} {r : Rect}
    (h : overlapsAny cs r = false) : ∀ s ∈ valuesOf cs, interArea r s ≤ 1/1000000 := by
  intro s hs
  have := List.any_eq_false.1 h s hs
  simp only [decide_eq_true_eq] at this
  exact le_of_not_lt this

theorem find_best_placement_sep {plan : Plan} {cs : Coords} {node anchor : String}
    {r : Rect} (h : find_best_placement_for plan cs node anchor = some r) :
    ∀ s ∈ valuesOf cs, interArea r s ≤ 1/1000000 := by
  unfold find_best_placement_for at h
  obtain ⟨p, hp⟩ := pickMinArea_mem h
  obtain ⟨xy, _, heq⟩ := List.mem_filterMap.1 hp
  by_cases hov : overlapsAny cs
      ⟨xy.1, xy.2, (size_for (findRoom plan node)).1, (size_for (findRoom plan node)).2⟩
  · rw [if_pos hov] at heq
    cases heq
  · rw [if_neg hov] at heq
    have hr : r = ⟨xy.1, xy.2, (size_for (findRoom plan node)).1,
        (size_for (findRoom plan node)).2⟩ := by
      cases heq
      rfl
    rw [hr]
    exact overlapsAny_false_sep (Bool.not_eq_true _ ▸ hov :)

theorem tryAnchors_sep {plan : Plan} {cs : Coords} {node : String} {r : Rect} :
    ∀ {anchors : List String}, tryAnchors plan cs node anchors = some r →
      ∀ s ∈ valuesOf cs, interArea r s ≤ 1/1000000 := by
  intro anchors
  induction anchors with
  | nil => intro h; cases h
  | cons a rest ih =>
    intro h
    unfold tryAnchors at h
    cases hfind : find_best_placement_for plan cs node a with
    | some r' =>
      rw [hfind] at h
      cases h
      exact find_best_placement_sep hfind
    | none =>
      rw [hfind] at h
      exact ih h

theorem pairwise_append_one {cs : Coords} {node : String} {r : Rect}
    (hcs : PairwiseNonOverlap cs) (hsep : ∀ s ∈ valuesOf cs, interArea s r ≤ 1/1000000) :
    PairwiseNonOverlap (cs ++ [(node, r)]) := by
  unfold PairwiseNonOverlap at hcs ⊢
  have hv : valuesOf (cs ++ [(node, r)]) = valuesOf cs ++ [r] := by
    simp [valuesOf]
  rw [hv, List.pairwise_append]
  exact ⟨hcs, List.pairwise_singleton _ _,
    fun a ha b hb => (List.mem_singleton.1 hb) ▸ hsep a ha⟩

theorem interArea_comm (a b : Rect) : interArea a b = interArea b a := by
  unfold interArea
  rw [min_comm, max_comm a.x b.x, min_comm (a.y + a.h), max_comm a.y b.y]

theorem placeLoop_sep (plan : Plan) (g : Graph) :
    ∀ (l : List String) (cs : Coords), PairwiseNonOverlap cs →
      PairwiseNonOverlap (placeLoop plan g l cs) := by
  intro l
  induction l with
  | nil => intro cs h; exact h
  | cons node rest ih =>
    intro cs h
    unfold placeLoop
    split
    · exact ih cs h
    · split
      · rename_i r heq
        exact ih _ (pairwise_append_one h
          (fun s hs => interArea_comm s r ▸ tryAnchors_sep heq s hs))
      · exact ih _ (pairwise_append_one h
          (fun s hs => by rw [interArea_fallback plan cs node s hs]; norm_num))

theorem pairwise_normalize {cs : Coords} (h : PairwiseNonOverlap cs) :
    PairwiseNonOverlap (normalize cs) := by
  unfold PairwiseNonOverlap at h ⊢
  rw [normalize_eq_translate, valuesOf_translate, List.pairwise_map]
  exact h.imp (fun hab => le_of_eq_of_le (interArea_translate _ _ _ _) hab)

/-- C3: the Layout built by the Constructive Placer is pairwise non-overlapping
(every pair of distinct rects intersects with area at most `1e-6`); the
predicate is an invariant of every placement step (anchored candidates that
overlap a placed rect by more than epsilon are rejected before placement), and
the fallback rect `0.5` to the right of the bounding box meets no placed rect. -/
theorem c3_nonoverlap :
    (∀ (plan : Plan) (cs : Coords),
        compact_snapping_layout plan = .ok cs → PairwiseNonOverlap cs) ∧
    (∀ (plan : Plan) (g : Graph) (l : List String) (cs : Coords),
        PairwiseNonOverlap cs → PairwiseNonOverlap (placeLoop plan g l cs)) ∧
    (∀ (plan : Plan) (cs : Coords) (node : String),
        ∀ s ∈ valuesOf cs, interArea s (fallbackRect plan cs node) = 0) := by
  refine ⟨?_, fun plan g l cs h => placeLoop_sep plan g l cs h, interArea_fallback⟩
  intro plan cs h
  unfold compact_snapping_layout at h
  cases hroot : rootOf plan with
  | error e =>
    rw [hroot] at h
    cases h
  | ok root =>
    rw [hroot] at h
    have hcs : cs = normalize (placeLoop plan (buildGraph plan)
        (bfsOrder (buildGraph plan) root)
        [(root, ⟨0, 0, (size_for (findRoom plan root)).1,
          (size_for (findRoom plan root)).2⟩)]) := by
      cases h
      rfl
    rw [hcs]
    apply pairwise_normalize
    apply placeLoop_sep
    exact List.pairwise_singleton _ _

/-- C3 (witness). -/
theorem c3_witness :
    PairwiseNonOverlap ((compact_snapping_layout planLivKit).toOption.getD []) :=
  c3_nonoverlap.1 planLivKit _ rfl

/-! ## C1: the placer's key set is exactly the BFS-reachable node list -/

theorem contains_iff_mem {l : List String} {a : String} :
    l.contains a = true ↔ a ∈ l := by
  simp

theorem contains_append_ne {l : List String} {a b : String} (h : a ≠ b) :
    (l ++ [b]).contains a = l.contains a := by
  simp [h]

theorem keysOf_append_one (cs : Coords) (n : String) (r : Rect) :
    keysOf (cs ++ [(n, r)]) = keysOf cs ++ [n] := by
  simp [keysOf]

/-- The placement loop visits its node list in order, placing exactly the
not-yet-placed nodes: its key set is the old keys followed by the new nodes. -/
theorem placeLoop_keys (plan : Plan) (g : Graph) :
    ∀ (l : List String) (cs : Coords), l.Nodup →
      keysOf (placeLoop plan g l cs) =
        keysOf cs ++ l.filter (fun n => !(keysOf cs).contains n) := by
  intro l
  induction l with
  | nil =>
    intro cs _
    simp [placeLoop]
  | cons node rest ih =>
    intro cs hnd
    have hnd' : rest.Nodup := hnd.of_cons
    have hnode : node ∉ rest := (List.nodup_cons.1 hnd).1
    unfold placeLoop
    by_cases hc : (keysOf cs).contains node
    · rw [if_pos hc, ih cs hnd']
      have hdrop : (node :: rest).filter (fun n => !(keysOf cs).contains n)
          = rest.filter (fun n => !(keysOf cs).contains n) := by
        simp [List.filter_cons, contains_iff_mem.1 hc]
      rw [hdrop]
    · rw [if_neg hc]
      have hnmem : node ∉ keysOf cs := fun hm => hc (contains_iff_mem.2 hm)
      have hkeep : (node :: rest).filter (fun n => !(keysOf cs).contains n)
          = node :: rest.filter (fun n => !(keysOf cs).contains n) := by
        simp [List.filter_cons, hnmem]
      have key : ∀ r : Rect,
          keysOf (placeLoop plan g rest (cs ++ [(node, r)])) =
            keysOf cs ++ (node :: rest).filter (fun n => !(keysOf cs).contains n) := by
        intro r
        rw [ih _ hnd', keysOf_append_one]
        have hfilter : rest.filter (fun n => !((keysOf cs ++ [node]).contains n))
            = rest.filter (fun n => !(keysOf cs).contains n) := by
          apply List.filter_congr
          intro m hm
          have hmn : m ≠ node := fun e => hnode (e ▸ hm)
          rw [contains_append_ne hmn]
        rw [hfilter, hkeep, List.append_assoc, List.singleton_append]
      cases htry : tryAnchors plan cs node (sortByDegDesc g ((neighborsOf g node).filter
          (fun n => (keysOf cs).contains n))) with
      | some r => exact key r
      | none => exact key _

/-- Graph well-formedness: all adjacency lists duplicate-free. -/
theorem graphWF_nil : GraphWF [] := fun p hp => absurd hp (List.not_mem_nil p)

theorem graphWF_add_node {g : Graph} (h : GraphWF g) (n : String) :
    GraphWF (add_node g n) := by
  unfold add_node
  split
  · exact h
  · intro p hp
    rcases List.mem_append.1 hp with hp | hp
    · exact h p hp
    · rw [List.mem_singleton.1 hp]
      exact List.nodup_nil

theorem graphWF_adjAdd {g : Graph} (h : GraphWF g) (a b : String) :
    GraphWF (adjAdd g a b) := by
  induction g with
  | nil =>
    intro p hp
    rw [List.mem_singleton.1 hp]
    exact List.nodup_singleton b
  | cons q g ih =>
    intro p hp
    unfold adjAdd at hp
    split at hp
    · rcases List.mem_cons.1 hp with hp | hp
      · subst hp
        split
        · exact h q (List.mem_cons_self q g)
        · rename_i hnc
          exact List.Nodup.append (h q (List.mem_cons_self q g)) (List.nodup_singleton b)
            (by
              intro x hx hxb
              rw [List.mem_singleton.1 hxb] at hx
              exact hnc (contains_iff_mem.2 hx))
      · exact h p (List.mem_cons_of_mem q hp)
    · rcases List.mem_cons.1 hp with hp | hp
      · subst hp
        exact h p (List.mem_cons_self p g)
      · exact ih (fun p' hp' => h p' (List.mem_cons_of_mem q hp')) p hp

theorem graphWF_add_edge {g : Graph} (h : GraphWF g) (a b : String) :
    GraphWF (add_edge g a b) :=
  graphWF_adjAdd (graphWF_adjAdd (graphWF_add_node (graphWF_add_node h a) b) a b) b a

theorem graphWF_foldl {β : Type} (f : Graph → β → Graph)
    (hf : ∀ g x, GraphWF g → GraphWF (f g x)) :
    ∀ (l : List β) (g : Graph), GraphWF g → GraphWF (l.foldl f g) := by
  intro l
  induction l with
  | nil => intro g hg; exact hg
  | cons x l ih => intro g hg; exact ih (f g x) (hf g x hg)

theorem graphWF_buildGraph (plan : Plan) : GraphWF (buildGraph plan) := by
  unfold buildGraph
  apply graphWF_foldl _ (fun g d hg => by
    split
    · exact graphWF_add_edge hg _ _
    · exact hg)
  apply graphWF_foldl _ (fun g r hg =>
    graphWF_foldl _ (fun g adj hg =>
      graphWF_foldl _ (fun g rr hg => by
        split
        · exact graphWF_add_edge hg _ _
        · exact hg) _ g hg) _ g hg)
  exact graphWF_foldl _ (fun g r hg => graphWF_add_node hg r.id) _ [] graphWF_nil

theorem neighborsOf_nodup {g : Graph} (h : GraphWF g) (n : String) :
    (neighborsOf g n).Nodup := by
  unfold neighborsOf
  cases hf : g.find? (fun p => p.1 == n) with
  | none => exact List.nodup_nil
  | some p => exact h p (List.mem_of_find?_eq_some hf)

/-- The BFS loop only ever appends fresh nodes to the discovery order. -/
theorem bfsLoop_shape {g : Graph} (hg : GraphWF g) :
    ∀ (fuel : Nat) (queue order : List String), order.Nodup →
      ∃ t, bfsLoop g fuel queue order = order ++ t ∧ (order ++ t).Nodup := by
  intro fuel
  induction fuel with
  | zero =>
    intro queue order hnd
    exact ⟨[], by simp [bfsLoop, hnd]⟩
  | succ fuel ih =>
    intro queue order hnd
    cases queue with
    | nil => exact ⟨[], by simp [bfsLoop, hnd]⟩
    | cons u queue =>
      have hnew : ((neighborsOf g u).filter (fun v => !(order.contains v))).Nodup :=
        (neighborsOf_nodup hg u).filter _
      have hdisj : ∀ x ∈ (neighborsOf g u).filter (fun v => !(order.contains v)),
          x ∉ order := by
        intro x hx hmem
        have := List.of_mem_filter hx
        rw [contains_iff_mem.2 hmem] at this
        cases this
      have hnd' : (order ++ (neighborsOf g u).filter (fun v => !(order.contains v))).Nodup :=
        List.Nodup.append hnd hnew (fun a ha hb => hdisj a hb ha)
      obtain ⟨t, ht, hndt⟩ := ih (queue ++ (neighborsOf g u).filter
        (fun v => !(order.contains v)))
        (order ++ (neighborsOf g u).filter (fun v => !(order.contains v))) hnd'
      refine ⟨(neighborsOf g u).filter (fun v => !(order.contains v)) ++ t, ?_, ?_⟩
      · rw [bfsLoop, ht, List.append_assoc]
      · rw [← List.append_assoc]
        exact hndt

theorem bfsOrder_shape {g : Graph} (hg : GraphWF g) (root : String) :
    ∃ t, bfsOrder g root = root :: t ∧ (root :: t).Nodup := by
  obtain ⟨t, ht, hnd⟩ := bfsLoop_shape hg (bfsFuel g) [root] [root] (List.nodup_singleton root)
  exact ⟨t, by simpa [bfsOrder] using ht, by simpa using hnd⟩

/-- C1 (amended): whenever the placer runs (the Plan has a root), the output
Layout has exactly one rect per *BFS-reachable* room id: its key list is the
BFS discovery order from the root (duplicate-free), so rooms in other
components of the adjacency graph are absent. -/
theorem c1_amended (plan : Plan) (root : String) (cs : Coords)
    (hroot : rootOf plan = .ok root)
    (hcs : compact_snapping_layout plan = .ok cs) :
    keysOf cs = bfsOrder (buildGraph plan) root ∧ (keysOf cs).Nodup := by
  unfold compact_snapping_layout at hcs
  rw [hroot] at hcs
  have hcs' : cs = normalize (placeLoop plan (buildGraph plan)
      (bfsOrder (buildGraph plan) root)
      [(root, ⟨0, 0, (size_for (findRoom plan root)).1,
        (size_for (findRoom plan root)).2⟩)]) := by
    cases hcs
    rfl
  obtain ⟨t, hshape, hnd⟩ := bfsOrder_shape (graphWF_buildGraph plan) root
  have hroot_notin : root ∉ t := (List.nodup_cons.1 hnd).1
  have hkeys : keysOf cs = bfsOrder (buildGraph plan) root := by
    rw [hcs', normalize_eq_translate, keysOf_translate,
      placeLoop_keys plan (buildGraph plan) _ _ (hshape ▸ hnd), hshape]
    have hk0 : keysOf [(root, (⟨0, 0, (size_for (findRoom plan root)).1,
        (size_for (findRoom plan root)).2⟩ : Rect))] = [root] := rfl
    rw [hk0]
    have hfil : (root :: t).filter (fun n => !([root].contains n)) = t := by
      rw [List.filter_cons, if_neg (by simp)]
      apply List.filter_eq_self.2
      intro m hm
      have hmr : m ≠ root := fun e => hroot_notin (e ▸ hm)
      simp [hmr]
    rw [hfil]
    rfl
  exact ⟨hkeys, hkeys ▸ hshape ▸ hnd⟩

/-- C1 (amended, witness). -/
theorem c1_witness :
    keysOf ((compact_snapping_layout planLivKit).toOption.getD []) =
      bfsOrder (buildGraph planLivKit) "a" ∧
    (keysOf ((compact_snapping_layout planLivKit).toOption.getD [])).Nodup :=
  c1_amended planLivKit "a" _ rfl rfl

/-! ## C6: edges added by the graph builder (including self-matches) -/

theorem edgeIn_elim {g : Graph} {n m : String} (h : EdgeIn g n m) :
    ∃ p0, g.find? (fun p => p.1 == n) = some p0 ∧ p0.2.contains m = true := by
  unfold EdgeIn neighborsOf at h
  cases hf : g.find? (fun p => p.1 == n) with
  | none =>
    rw [hf] at h
    cases h
  | some p0 =>
    rw [hf] at h
    exact ⟨p0, rfl, h⟩

theorem neighborsOf_cons (p : String × List String) (g : Graph) (n : String) :
    neighborsOf (p :: g) n = if p.1 == n then p.2 else neighborsOf g n := by
  unfold neighborsOf
  cases h : (p.1 == n) with
  | true => simp [List.find?_cons, h]
  | false => simp [List.find?_cons, h]

theorem adjAdd_cons (p : String × List String) (g : Graph) (a b : String) :
    adjAdd (p :: g) a b =
      if p.1 == a then (p.1, if p.2.contains b then p.2 else p.2 ++ [b]) :: g
      else p :: adjAdd g a b := rfl

theorem neighborsOf_adjAdd_ne {g : Graph} {x n : String} (y : String) (hne : n ≠ x) :
    neighborsOf (adjAdd g x y) n = neighborsOf g n := by
  have hxn : (x == n) = false := beq_eq_false_iff_ne.2 (fun e => hne e.symm)
  induction g with
  | nil =>
    show neighborsOf [(x, [y])] n = neighborsOf [] n
    rw [neighborsOf_cons]
    simp [hxn]
  | cons p g ih =>
    rw [adjAdd_cons]
    by_cases hx : (p.1 == x) = true
    · rw [if_pos hx, neighborsOf_cons, neighborsOf_cons]
      have hpn : (p.1 == n) = false := by
        have hpx : p.1 = x := beq_iff_eq.1 hx
        rw [hpx]
        exact hxn
      simp [hpn]
    · rw [if_neg hx, neighborsOf_cons, neighborsOf_cons]
      by_cases hpn : (p.1 == n) = true
      · simp [hpn]
      · simp [eq_false_of_ne_true hpn, ih]

theorem contains_mono_append {l : List String} {a b : String}
    (h : l.contains b = true) : (l ++ [a]).contains b = true := by
  simp at h ⊢
  exact Or.inl h

theorem edgeIn_adjAdd {g : Graph} {n m : String} (x y : String) (h : EdgeIn g n m) :
    EdgeIn (adjAdd g x y) n m := by
  by_cases hne : n = x
  · subst hne
    unfold EdgeIn at h ⊢
    induction g with
    | nil =>
      unfold neighborsOf at h
      simp [List.find?] at h
    | cons p g ih =>
      rw [neighborsOf_cons] at h
      rw [adjAdd_cons]
      by_cases hx : (p.1 == n) = true
      · rw [if_pos hx, neighborsOf_cons]
        simp only [hx, if_true]
        rw [if_pos hx] at h
        split
        · exact h
        · exact contains_mono_append h
      · rw [if_neg hx, neighborsOf_cons, eq_false_of_ne_true hx]
        simp only [Bool.false_eq_true, if_false]
        rw [eq_false_of_ne_true hx] at h
        simp only [Bool.false_eq_true, if_false] at h
        exact ih h
  · unfold EdgeIn
    rw [neighborsOf_adjAdd_ne y hne]
    exact h

theorem edgeIn_add_node {g : Graph} {n m : String} (x : String) (h : EdgeIn g n m) :
    EdgeIn (add_node g x) n m := by
  unfold add_node
  split
  · exact h
  · obtain ⟨p0, hf, hc⟩ := edgeIn_elim h
    unfold EdgeIn neighborsOf
    rw [List.find?_append, hf]
    simpa using hc

theorem edgeIn_add_edge_pres {g : Graph} {n m : String} (a b : String)
    (h : EdgeIn g n m) : EdgeIn (add_edge g a b) n m :=
  edgeIn_adjAdd b a (edgeIn_adjAdd a b (edgeIn_add_node b (edgeIn_add_node a h)))

theorem edgeIn_adjAdd_self (g : Graph) (a b : String) : EdgeIn (adjAdd g a b) a b := by
  induction g with
  | nil =>
    show EdgeIn [(a, [b])] a b
    unfold EdgeIn
    rw [neighborsOf_cons]
    simp
  | cons p g ih =>
    rw [adjAdd_cons]
    by_cases hx : (p.1 == a) = true
    · rw [if_pos hx]
      unfold EdgeIn
      rw [neighborsOf_cons]
      simp only [hx, if_true]
      split
      · assumption
      · simp
    · rw [if_neg hx]
      unfold EdgeIn
      rw [neighborsOf_cons, eq_false_of_ne_true hx]
      simp only [Bool.false_eq_true, if_false]
      exact ih

/-- `add_edge` records `b` among `a`'s neighbors (also when `a = b`). -/
theorem edgeIn_add_edge_self (g : Graph) (a b : String) : EdgeIn (add_edge g a b) a b :=
  edgeIn_adjAdd b a (edgeIn_adjAdd_self (add_node (add_node g a) b) a b)

theorem foldl_pres {β : Type} (P : Graph → Prop) (f : Graph → β → Graph)
    (hf : ∀ g x, P g → P (f g x)) :
    ∀ (l : List β) (g : Graph), P g → P (l.foldl f g) := by
  intro l
  induction l with
  | nil => intro g hg; exact hg
  | cons x l ih => intro g hg; exact ih (f g x) (hf g x hg)

theorem foldl_estab {β : Type} (P : Graph → Prop) (f : Graph → β → Graph)
    (hf : ∀ g x, P g → P (f g x)) {x : β} (hest : ∀ g, P (f g x)) :
    ∀ (l : List β) (g : Graph), x ∈ l → P (l.foldl f g) := by
  intro l
  induction l with
  | nil => intro g hx; cases hx
  | cons y l ih =>
    intro g hx
    rcases List.mem_cons.1 hx with h | h
    · subst h
      exact foldl_pres P f hf l (f g x) (hest g)
    · exact ih (f g y) h

/-- C6 (amended): for every room `r` and token `t` in `r.preferred_adjacent`,
the graph builder records an edge `(r.id, rr.id)` for every room `rr` whose
type or id contains `t` case-insensitively — `rr = r` included, so a room
matching its own token yields a self-loop. -/
theorem c6_amended (plan : Plan) (r rr : Room) (t : String)
    (hr : r ∈ plan.rooms) (hrr : rr ∈ plan.rooms)
    (ht : t ∈ r.preferred_adjacent) (hm : matchTok t rr = true) :
    EdgeIn (buildGraph plan) r.id rr.id := by
  simp only [buildGraph]
  have hstep : ∀ (x y : String) (g : Graph) (rr' : Room), EdgeIn g r.id rr.id →
      EdgeIn (if matchTok x rr' then add_edge g y rr'.id else g) r.id rr.id := by
    intro x y g rr' hg
    split
    · exact edgeIn_add_edge_pres _ _ hg
    · exact hg
  apply foldl_pres (fun g => EdgeIn g r.id rr.id) _ (fun g d hg => by
    split
    · exact edgeIn_add_edge_pres _ _ hg
    · exact hg)
  apply foldl_estab (fun g => EdgeIn g r.id rr.id) _
    (fun g r' hg =>
      foldl_pres (fun g => EdgeIn g r.id rr.id) _
        (fun g adj hg =>
          foldl_pres (fun g => EdgeIn g r.id rr.id) _
            (fun g rr' hg => hstep adj r'.id g rr' hg) _ g hg)
        _ g hg)
    (fun g =>
      foldl_estab (fun g => EdgeIn g r.id rr.id) _
        (fun g adj hg =>
          foldl_pres (fun g => EdgeIn g r.id rr.id) _
            (fun g rr' hg => hstep adj r.id g rr' hg) _ g hg)
        (fun g =>
          foldl_estab (fun g => EdgeIn g r.id rr.id) _
            (fun g rr' hg => hstep t r.id g rr' hg)
            (fun g => by
              rw [if_pos hm]
              exact edgeIn_add_edge_self g r.id rr.id)
            plan.rooms g hrr)
        r.preferred_adjacent g ht)
    plan.rooms _ hr

/-- C6 (witness): applied to the self-matching kitchen plan. -/
theorem c6_witness : EdgeIn (buildGraph planSelf)
    (⟨"k1", "Kitchen", ["kitchen"], none, none, none⟩ : Room).id
    (⟨"k1", "Kitchen", ["kitchen"], none, none, none⟩ : Room).id :=
  c6_amended planSelf _ _ "kitchen" (by decide) (by decide) (by decide) (by decide)

/-! ## C9: the annealer only translates rooms, never resizes them -/

theorem sizesOf_cons (p : String × Rect) (cs : Coords) :
    sizesOf (p :: cs) = (p.1, p.2.w, p.2.h) :: sizesOf cs := rfl

theorem sizesOf_fst : ∀ cs : Coords, (sizesOf cs).map Prod.fst = keysOf cs := by
  intro cs
  induction cs with
  | nil => rfl
  | cons p cs ih => simp [sizesOf_cons, keysOf, ih]

theorem keysOf_of_sizesOf {cs ds : Coords} (h : sizesOf cs = sizesOf ds) :
    keysOf cs = keysOf ds := by
  rw [← sizesOf_fst, ← sizesOf_fst, h]

theorem getR_cons (p : String × Rect) (cs : Coords) (k : String) :
    getR (p :: cs) k = if p.1 == k then p.2 else getR cs k := by
  unfold getR
  cases h : (p.1 == k) with
  | true => simp [List.find?_cons, h]
  | false => simp [List.find?_cons, h]

theorem setk_cons (p : String × Rect) (cs : Coords) (k : String) (r : Rect) :
    setk (p :: cs) k r = if p.1 == k then (p.1, r) :: cs else p :: setk cs k r := rfl

/-- Writing back a rect with the room's own width and height keeps the
key-and-size skeleton unchanged. -/
theorem sizesOf_setk (cs : Coords) (k : String) (x y : ℚ) (hk : k ∈ keysOf cs) :
    sizesOf (setk cs k ⟨x, y, (getR cs k).w, (getR cs k).h⟩) = sizesOf cs := by
  induction cs with
  | nil => cases hk
  | cons p rest ih =>
    rw [getR_cons, setk_cons]
    by_cases hpk : (p.1 == k) = true
    · rw [if_pos hpk, if_pos hpk]
      simp [sizesOf_cons]
    · rw [if_neg hpk, if_neg hpk]
      have hk' : k ∈ keysOf rest := by
        rcases List.mem_cons.1 hk with h | h
        · exact absurd (beq_iff_eq.2 h.symm) hpk
        · exact h
      rw [sizesOf_cons, sizesOf_cons, ih hk']

theorem choiceIdx_lt {n : Nat} (h : n ≠ 0) (u : ℚ) : choiceIdx u n < n :=
  lt_of_le_of_lt (min_le_right _ _) (Nat.pred_lt h)

theorem chosen_mem {room_ids : List String} (hne : room_ids ≠ []) (u : ℚ) :
    room_ids.getD (choiceIdx u room_ids.length) "" ∈ room_ids := by
  have hlt : choiceIdx u room_ids.length < room_ids.length :=
    choiceIdx_lt (fun h => hne (List.length_eq_zero.1 h)) u
  rw [List.getD_eq_getElem _ _ hlt]
  exact List.getElem_mem hlt

theorem snap_room_sizes {hyp : ℚ → ℚ → ℚ} {pairs : List (String × String)}
    {room_ids : List String} {init : Coords} (hids : room_ids = keysOf init)
    (st : OptState) (rid : String) (hrid : rid ∈ room_ids)
    (hinv : SkInv init st) : SkInv init (snap_room hyp pairs room_ids st rid) := by
  obtain ⟨hcur, hbest⟩ := hinv
  have hmem : rid ∈ keysOf st.current := by
    rw [keysOf_of_sizesOf hcur, ← hids]
    exact hrid
  have hset : ∀ x y : ℚ, sizesOf (setk st.current rid
      ⟨x, y, (getR st.current rid).w, (getR st.current rid).h⟩) = sizesOf init :=
    fun x y => (sizesOf_setk st.current rid x y hmem).trans hcur
  simp only [snap_room]
  split
  · exact ⟨hcur, hbest⟩
  · split
    · split
      · exact ⟨hset _ _, hset _ _⟩
      · exact ⟨hset _ _, hbest⟩
    · exact ⟨hcur, hbest⟩

theorem opt_move_sizes {hyp : ℚ → ℚ → ℚ} {expQ : ℚ → ℚ} {u : ℕ → ℚ}
    {pairs : List (String × String)} {room_ids : List String} {init : Coords}
    (hids : room_ids = keysOf init) (hne : init ≠ [])
    (iterations it : ℕ) (st : OptState) (hinv : SkInv init st) :
    SkInv init (opt_move hyp expQ u pairs room_ids iterations it st) := by
  obtain ⟨hcur, hbest⟩ := hinv
  have hne' : room_ids ≠ [] := by
    rw [hids]
    intro h
    exact hne (by cases init with
      | nil => rfl
      | cons p cs => cases h)
  have hmem : room_ids.getD (choiceIdx (u st.rk) room_ids.length) "" ∈ keysOf st.current := by
    rw [keysOf_of_sizesOf hcur, ← hids]
    exact chosen_mem hne' (u st.rk)
  have hset : ∀ x y : ℚ, sizesOf (setk st.current
      (room_ids.getD (choiceIdx (u st.rk) room_ids.length) "")
      ⟨x, y, (getR st.current (room_ids.getD (choiceIdx (u st.rk) room_ids.length) "")).w,
        (getR st.current (room_ids.getD (choiceIdx (u st.rk) room_ids.length) "")).h⟩)
      = sizesOf init :=
    fun x y => (sizesOf_setk st.current _ x y hmem).trans hcur
  have haccept : ∀ (x y : ℚ) (q : ℚ) (k : ℕ),
      SkInv init (opt_accept (setk st.current
        (room_ids.getD (choiceIdx (u st.rk) room_ids.length) "")
        ⟨x, y, (getR st.current (room_ids.getD (choiceIdx (u st.rk) room_ids.length) "")).w,
          (getR st.current (room_ids.getD (choiceIdx (u st.rk) room_ids.length) "")).h⟩) q k st) := by
    intro x y q k
    unfold opt_accept
    split
    · exact ⟨hset _ _, hset _ _⟩
    · exact ⟨hset _ _, hbest⟩
  simp only [opt_move, _random_neighbor]
  split
  · exact haccept _ _ _ _
  · split
    · exact haccept _ _ _ _
    · exact ⟨hcur, hbest⟩

theorem foldl_opt_inv {β : Type} (P : OptState → Prop) (f : OptState → β → OptState) :
    ∀ (l : List β), (∀ st x, x ∈ l → P st → P (f st x)) →
      ∀ st, P st → P (l.foldl f st) := by
  intro l
  induction l with
  | nil => intro _ st h; exact h
  | cons x l ih =>
    intro hf st h
    exact ih (fun st' y hy h' => hf st' y (List.mem_cons_of_mem x hy) h') (f st x)
      (hf st x (List.mem_cons_self x l) h)

theorem opt_step_sizes {hyp : ℚ → ℚ → ℚ} {expQ : ℚ → ℚ} {u : ℕ → ℚ}
    {pairs : List (String × String)} {room_ids : List String} {init : Coords}
    (hids : room_ids = keysOf init) (hne : init ≠ [])
    (iterations it : ℕ) (st : OptState) (hinv : SkInv init st) :
    SkInv init (opt_step hyp expQ u pairs room_ids iterations it st) := by
  unfold opt_step
  split
  · exact foldl_opt_inv (SkInv init) _ room_ids
      (fun st' rid hrid h => snap_room_sizes hids st' rid hrid h) _
      (opt_move_sizes hids hne iterations it st hinv)
  · exact opt_move_sizes hids hne iterations it st hinv

/-- C9: for every room id, the `(width, height)` stored in the Layout returned
by `optimize_layout` equals that room's size in the initial coords (and the key
list is unchanged): random perturbations, snap moves and the final
normalization only ever change `x` and `y`. -/
theorem c9_size_preservation (hyp : ℚ → ℚ → ℚ) (expQ : ℚ → ℚ) (u : ℕ → ℚ)
    (initial : Coords) (plan : Plan) (pairsArg : Option (List (String × String)))
    (iterations : ℕ) (hne : initial ≠ []) :
    sizesOf (optimize_layout hyp expQ u initial plan pairsArg iterations) =
      sizesOf initial := by
  simp only [optimize_layout]
  rw [normalize_eq_translate, sizesOf_translate]
  have : SkInv initial ((List.range iterations).foldl
      (fun st it => opt_step hyp expQ u
        (match pairsArg with | some ps => ps | none => inferPairs plan)
        (keysOf initial) iterations it st)
      ⟨initial, cost_fn hyp initial
        (match pairsArg with | some ps => ps | none => inferPairs plan) weightsUsed,
        initial, cost_fn hyp initial
        (match pairsArg with | some ps => ps | none => inferPairs plan) weightsUsed, 0⟩) :=
    foldl_opt_inv (SkInv initial) _ (List.range iterations)
      (fun st it _ h => opt_step_sizes rfl hne iterations it st h) _ ⟨rfl, rfl⟩
  exact this.2

/-- C9 (witness). -/
theorem c9_witness :
    sizesOf (optimize_layout (fun _ _ => 0) (fun _ => 1) (fun _ => 1/2) initCavity
      planEmpty (some []) 1) = sizesOf initCavity :=
  c9_size_preservation (fun _ _ => 0) (fun _ => 1) (fun _ => 1/2) initCavity
    planEmpty (some []) 1 (by decide)

/-! ## C2 (amended): the output's total overlap is bounded by the initial cost -/

theorem foldl_le_of_step {β : Type} (f : ℚ → β → ℚ) (hstep : ∀ acc x, acc ≤ f acc x) :
    ∀ (l : List β) (acc : ℚ), acc ≤ l.foldl f acc := by
  intro l
  induction l with
  | nil => intro acc; exact le_refl acc
  | cons x l ih => intro acc; exact le_trans (hstep acc x) (ih (f acc x))

theorem adjacency_nonneg (hyp : ℚ → ℚ → ℚ) (hh : ∀ a b, 0 ≤ hyp a b)
    (cs : Coords) (pairs : List (String × String)) :
    0 ≤ adjacency_distance_cost hyp cs pairs := by
  unfold adjacency_distance_cost
  apply foldl_le_of_step
  intro acc ab
  split
  · exact le_add_of_nonneg_right (hh _ _)
  · exact le_refl acc

theorem aspect_nonneg (cs : Coords) : 0 ≤ aspect_ratio_penalty cs := by
  unfold aspect_ratio_penalty
  apply foldl_le_of_step
  intro acc r
  have h := le_max_left (0 : ℚ)
    (max (if 0 < r.h then r.w / r.h else 1000000)
         (if 0 < r.w then r.h / r.w else 1000000) - 3/2)
  linarith

theorem cost_fn_ge_overlap (hyp : ℚ → ℚ → ℚ) (hh : ∀ a b, 0 ≤ hyp a b)
    (cs : Coords) (pairs : List (String × String)) :
    100 * total_overlap_area cs ≤ cost_fn hyp cs pairs weightsUsed := by
  unfold cost_fn weightsUsed
  have h1 := adjacency_nonneg hyp hh cs pairs
  have h2 : (0 : ℚ) ≤ bbox_area_opt cs := by
    unfold bbox_area_opt
    exact le_trans (by norm_num) (le_max_left _ _)
  have h3 := aspect_nonneg cs
  simp only
  linarith

theorem overlapRow_translate (t s : ℚ) (r : Rect) :
    ∀ l : List Rect, overlapRow (translateR t s r) (l.map (translateR t s)) = overlapRow r l := by
  intro l
  induction l with
  | nil => rfl
  | cons a l ih => simp [overlapRow, interArea_translate, ih]

theorem sumPairs_translate (t s : ℚ) :
    ∀ l : List Rect, sumPairs (l.map (translateR t s)) = sumPairs l := by
  intro l
  induction l with
  | nil => rfl
  | cons a l ih => simp [sumPairs, overlapRow_translate, ih]

theorem total_overlap_normalize (cs : Coords) :
    total_overlap_area (normalize cs) = total_overlap_area cs := by
  unfold total_overlap_area
  rw [normalize_eq_translate, valuesOf_translate, sumPairs_translate]

/-- The greedy snap fold always carries the true cost of the tracked position. -/
theorem snap_fold_track (f : (ℚ × ℚ) → ℚ) :
    ∀ (l : List (ℚ × ℚ)) (acc : Option ((ℚ × ℚ) × ℚ)),
      (∀ pc, acc = some pc → pc.2 = f pc.1) →
      ∀ pc, l.foldl (fun acc txy =>
          match acc with
          | none => some (txy, f txy)
          | some pc' => if f txy < pc'.2 then some (txy, f txy) else acc) acc = some pc →
        pc.2 = f pc.1 := by
  intro l
  induction l with
  | nil =>
    intro acc hacc pc h
    exact hacc pc h
  | cons txy l ih =>
    intro acc hacc pc h
    apply ih _ _ pc h
    intro pc' hpc'
    cases acc with
    | none =>
      cases hpc'
      rfl
    | some pc0 =>
      dsimp only at hpc'
      by_cases hlt : f txy < pc0.2
      · rw [if_pos hlt] at hpc'
        cases hpc'
        rfl
      · rw [if_neg hlt] at hpc'
        exact hacc pc' hpc'

theorem snap_room_cost {hyp : ℚ → ℚ → ℚ} {pairs : List (String × String)}
    {room_ids : List String} {C0 : ℚ} (st : OptState) (rid : String)
    (hinv : CostInv hyp pairs C0 st) :
    CostInv hyp pairs C0 (snap_room hyp pairs room_ids st rid) := by
  obtain ⟨hbc, hle⟩ := hinv
  simp only [snap_room]
  split
  · exact ⟨hbc, hle⟩
  · rename_i txy bc heq
    split
    · have hbc' : bc = cost_fn hyp (setk st.current rid
          ⟨txy.1, txy.2, (getR st.current rid).w, (getR st.current rid).h⟩)
          pairs weightsUsed :=
        snap_fold_track
          (fun txy => cost_fn hyp (setk st.current rid
            ⟨txy.1, txy.2, (getR st.current rid).w, (getR st.current rid).h⟩)
            pairs weightsUsed)
          (snap_positions st.current room_ids rid (getR st.current rid).w
            (getR st.current rid).h)
          none (fun pc0 h0 => by cases h0) (txy, bc) heq
      split
      · rename_i h2
        exact ⟨hbc', le_of_lt (lt_of_lt_of_le h2 hle)⟩
      · exact ⟨hbc, hle⟩
    · exact ⟨hbc, hle⟩

theorem opt_accept_cost {hyp : ℚ → ℚ → ℚ} {pairs : List (String × String)}
    {C0 : ℚ} (cand : Coords) (k : ℕ) (st : OptState)
    (hinv : CostInv hyp pairs C0 st) :
    CostInv hyp pairs C0 (opt_accept cand (cost_fn hyp cand pairs weightsUsed) k st) := by
  obtain ⟨hbc, hle⟩ := hinv
  unfold opt_accept
  split
  · rename_i h
    exact ⟨rfl, le_of_lt (lt_of_lt_of_le h hle)⟩
  · exact ⟨hbc, hle⟩

theorem opt_move_cost {hyp : ℚ → ℚ → ℚ} {expQ : ℚ → ℚ} {u : ℕ → ℚ}
    {pairs : List (String × String)} {room_ids : List String} {C0 : ℚ}
    (iterations it : ℕ) (st : OptState) (hinv : CostInv hyp pairs C0 st) :
    CostInv hyp pairs C0 (opt_move hyp expQ u pairs room_ids iterations it st) := by
  simp only [opt_move, _random_neighbor]
  split
  · exact opt_accept_cost _ _ _ hinv
  · split
    · exact opt_accept_cost _ _ _ hinv
    · exact hinv

theorem opt_step_cost {hyp : ℚ → ℚ → ℚ} {expQ : ℚ → ℚ} {u : ℕ → ℚ}
    {pairs : List (String × String)} {room_ids : List String} {C0 : ℚ}
    (iterations it : ℕ) (st : OptState) (hinv : CostInv hyp pairs C0 st) :
    CostInv hyp pairs C0 (opt_step hyp expQ u pairs room_ids iterations it st) := by
  unfold opt_step
  split
  · exact foldl_opt_inv (CostInv hyp pairs C0) _ room_ids
      (fun st' rid _ h => snap_room_cost st' rid h) _
      (opt_move_cost iterations it st hinv)
  · exact opt_move_cost iterations it st hinv

/-- C2 (amended): whatever the seed stream, iteration budget, Plan and
adjacency pairs, the Layout returned by `optimize_layout` has total pairwise
intersection area at most `1/100` of the initial layout's cost (the returned
`best` layout's cost never exceeds the initial cost, and overlap enters the
objective with weight 100 while all other cost terms are nonnegative).
Non-overlap within `1e-6` itself is *not* guaranteed (see the counterexample). -/
theorem costinv_overlap_bound {hyp : ℚ → ℚ → ℚ} {pairs : List (String × String)}
    {C0 : ℚ} (hh : ∀ a b, 0 ≤ hyp a b) (st : OptState)
    (hinv : CostInv hyp pairs C0 st) : 100 * total_overlap_area st.best ≤ C0 := by
  obtain ⟨hbc, hle⟩ := hinv
  have hge := cost_fn_ge_overlap hyp hh st.best pairs
  rw [← hbc] at hge
  exact le_trans hge hle

theorem c2_core (hyp : ℚ → ℚ → ℚ) (expQ : ℚ → ℚ) (u : ℕ → ℚ)
    (initial : Coords) (plan : Plan) (pairs : List (String × String))
    (iterations : ℕ) (hh : ∀ a b, 0 ≤ hyp a b) :
    100 * total_overlap_area (optimize_layout hyp expQ u initial plan (some pairs) iterations)
      ≤ cost_fn hyp initial pairs weightsUsed := by
  simp only [optimize_layout]
  rw [total_overlap_normalize]
  exact costinv_overlap_bound hh _
    (foldl_opt_inv (CostInv hyp pairs (cost_fn hyp initial pairs weightsUsed)) _
      (List.range iterations) (fun st it _ h => opt_step_cost iterations it st h) _
      ⟨rfl, le_refl _⟩)

/-- C2 (amended): whatever the seed stream, iteration budget, Plan and
adjacency pairs, the Layout returned by `optimize_layout` has total pairwise
intersection area at most `1/100` of the initial layout's cost (the returned
`best` layout's cost never exceeds the initial cost, and overlap enters the
objective with weight 100 while all other cost terms are nonnegative).
Non-overlap within `1e-6` itself is *not* guaranteed (see the counterexample). -/
theorem c2_amended (hyp : ℚ → ℚ → ℚ) (expQ : ℚ → ℚ) (u : ℕ → ℚ)
    (initial : Coords) (plan : Plan) (pairsArg : Option (List (String × String)))
    (iterations : ℕ) (hh : ∀ a b, 0 ≤ hyp a b) :
    100 * total_overlap_area (optimize_layout hyp expQ u initial plan pairsArg iterations)
      ≤ cost_fn hyp initial
          (match pairsArg with | some ps => ps | none => inferPairs plan) weightsUsed := by
  cases pairsArg with
  | some ps => exact c2_core hyp expQ u initial plan ps iterations hh
  | none => exact c2_core hyp expQ u initial plan (inferPairs plan) iterations hh

/-- C2 (amended, witness). -/
theorem c2_witness :
    100 * total_overlap_area (optimize_layout (fun _ _ => 0) (fun _ => 1)
        (fun _ => 1/2) initCavity planEmpty (some []) 1)
      ≤ cost_fn (fun _ _ => 0) initCavity [] weightsUsed :=
  c2_amended (fun _ _ => 0) (fun _ => 1) (fun _ => 1/2) initCavity planEmpty
    (some []) 1 (fun a b => le_refl 0)


/-! ## C8: determinism given the seed stream -/

theorem opt_accept_rk (cand : Coords) (cc : ℚ) (k : ℕ) (st : OptState) :
    (opt_accept cand cc k st).rk = k := by
  unfold opt_accept
  split
  · rfl
  · rfl

theorem snap_room_rk (hyp : ℚ → ℚ → ℚ) (pairs : List (String × String))
    (room_ids : List String) (st : OptState) (rid : String) :
    (snap_room hyp pairs room_ids st rid).rk = st.rk := by
  simp only [snap_room]
  split
  · rfl
  · split
    · split
      · rfl
      · rfl
    · rfl

theorem foldl_snap_rk (hyp : ℚ → ℚ → ℚ) (pairs : List (String × String))
    (room_ids : List String) :
    ∀ (l : List String) (st : OptState),
      (l.foldl (snap_room hyp pairs room_ids) st).rk = st.rk := by
  intro l
  induction l with
  | nil => intro st; rfl
  | cons r l ih =>
    intro st
    rw [List.foldl_cons, ih, snap_room_rk]

theorem opt_move_rk (hyp : ℚ → ℚ → ℚ) (expQ : ℚ → ℚ) (u : ℕ → ℚ)
    (pairs : List (String × String)) (room_ids : List String)
    (iterations it : ℕ) (st : OptState) :
    (opt_move hyp expQ u pairs room_ids iterations it st).rk ≤ st.rk + 4 := by
  simp only [opt_move, _random_neighbor]
  split
  · rw [opt_accept_rk]
    show st.rk + 3 ≤ st.rk + 4
    omega
  · split
    · rw [opt_accept_rk]
    · show st.rk + 3 + 1 ≤ st.rk + 4
      omega

theorem opt_step_rk (hyp : ℚ → ℚ → ℚ) (expQ : ℚ → ℚ) (u : ℕ → ℚ)
    (pairs : List (String × String)) (room_ids : List String)
    (iterations it : ℕ) (st : OptState) :
    (opt_step hyp expQ u pairs room_ids iterations it st).rk ≤ st.rk + 4 := by
  unfold opt_step
  split
  · rw [foldl_snap_rk]
    exact opt_move_rk hyp expQ u pairs room_ids iterations it st
  · exact opt_move_rk hyp expQ u pairs room_ids iterations it st

theorem opt_move_congr (hyp : ℚ → ℚ → ℚ) (expQ : ℚ → ℚ) (u1 u2 : ℕ → ℚ)
    (pairs : List (String × String)) (room_ids : List String)
    (iterations it : ℕ) (st : OptState)
    (h : ∀ k, k < st.rk + 4 → u1 k = u2 k) :
    opt_move hyp expQ u1 pairs room_ids iterations it st =
      opt_move hyp expQ u2 pairs room_ids iterations it st := by
  have h0 : u1 st.rk = u2 st.rk := h st.rk (by omega)
  have h1 : u1 (st.rk + 1) = u2 (st.rk + 1) := h (st.rk + 1) (by omega)
  have h2 : u1 (st.rk + 2) = u2 (st.rk + 2) := h (st.rk + 2) (by omega)
  have h3 : u1 (st.rk + 3) = u2 (st.rk + 3) := h (st.rk + 3) (by omega)
  simp only [opt_move, _random_neighbor]
  rw [h0, h1, h2, h3]

theorem opt_step_congr (hyp : ℚ → ℚ → ℚ) (expQ : ℚ → ℚ) (u1 u2 : ℕ → ℚ)
    (pairs : List (String × String)) (room_ids : List String)
    (iterations it : ℕ) (st : OptState)
    (h : ∀ k, k < st.rk + 4 → u1 k = u2 k) :
    opt_step hyp expQ u1 pairs room_ids iterations it st =
      opt_step hyp expQ u2 pairs room_ids iterations it st := by
  unfold opt_step
  rw [opt_move_congr hyp expQ u1 u2 pairs room_ids iterations it st h]

theorem foldl_rk_congr (f1 f2 : OptState → ℕ → OptState) (A : ℕ → Prop)
    (hstep : ∀ st it, (∀ k, k < st.rk + 4 → A k) → f1 st it = f2 st it)
    (hrk : ∀ st it, (f2 st it).rk ≤ st.rk + 4) :
    ∀ (l : List ℕ) (st : OptState),
      (∀ k, k < st.rk + 4 * l.length → A k) →
      l.foldl f1 st = l.foldl f2 st := by
  intro l
  induction l with
  | nil => intro st _; rfl
  | cons it l ih =>
    intro st h
    have he : f1 st it = f2 st it :=
      hstep st it (fun k hk => h k (by simp only [List.length_cons]; omega))
    rw [List.foldl_cons, List.foldl_cons, he]
    exact ih (f2 st it) (fun k hk => h k (by
      have hb := hrk st it
      simp only [List.length_cons]
      omega))

theorem opt_loop_agree (hyp : ℚ → ℚ → ℚ) (expQ : ℚ → ℚ) (u1 u2 : ℕ → ℚ)
    (pairs : List (String × String)) (room_ids : List String) (iterations : ℕ) :
    ∀ (l : List ℕ) (st : OptState),
      (∀ k, k < st.rk + 4 * l.length → u1 k = u2 k) →
      l.foldl (fun st it => opt_step hyp expQ u1 pairs room_ids iterations it st) st =
        l.foldl (fun st it => opt_step hyp expQ u2 pairs room_ids iterations it st) st :=
  foldl_rk_congr _ _ (fun k => u1 k = u2 k)
    (fun st it hag => opt_step_congr hyp expQ u1 u2 pairs room_ids iterations it st hag)
    (fun st it => opt_step_rk hyp expQ u2 pairs room_ids iterations it st)

/-- C8: the annealer's only source of randomness is the seed-determined draw
stream; each iteration consumes at most 4 draws (room choice, two shift
uniforms, and the Metropolis draw only when `delta ≥ 0`) and the snap sweep
consumes none, so two runs whose draw streams agree on the first
`4 * iterations` draws return identical layouts.  In particular a fixed seed
makes `optimize_layout` fully deterministic. -/
theorem c8_determinism (hyp : ℚ → ℚ → ℚ) (expQ : ℚ → ℚ) (u1 u2 : ℕ → ℚ)
    (initial : Coords) (plan : Plan) (pairsArg : Option (List (String × String)))
    (iterations : ℕ) (h : ∀ k, k < 4 * iterations → u1 k = u2 k) :
    optimize_layout hyp expQ u1 initial plan pairsArg iterations =
      optimize_layout hyp expQ u2 initial plan pairsArg iterations := by
  simp only [optimize_layout]
  rw [opt_loop_agree hyp expQ u1 u2 _ (keysOf initial) iterations (List.range iterations)
    _ (fun k hk => h k (by
      have hk' : k < 0 + 4 * (List.range iterations).length := hk
      simp only [List.length_range] at hk'
      omega))]

/-- C8 (witness): two draw streams that agree on the first `4 * 2` draws (but
differ later) give identical 2-iteration runs. -/
theorem c8_witness :
    optimize_layout (fun _ _ => 0) (fun _ => 1) (fun _ => 1/2)
        [("a", ⟨0, 0, 1, 1⟩)] planEmpty (some []) 2 =
      optimize_layout (fun _ _ => 0) (fun _ => 1)
        (fun k => if k < 8 then 1/2 else 7)
        [("a", ⟨0, 0, 1, 1⟩)] planEmpty (some []) 2 :=
  c8_determinism (fun _ _ => 0) (fun _ => 1) (fun _ => 1/2)
    (fun k => if k < 8 then 1/2 else 7) [("a", ⟨0, 0, 1, 1⟩)] planEmpty (some []) 2
    (fun k hk => by
      show (1 / 2 : ℚ) = if k < 8 then 1 / 2 else 7
      rw [if_pos (show k < 8 by omega)])

/-- C10 (witness). -/
theorem c10_witness :
    qMin (xsOf (normalize [("a", ⟨3, 4, 2, 1⟩)])) = 1/5 ∧
    qMin (ysOf (normalize [("a", ⟨3, 4, 2, 1⟩)])) = 1/5 ∧
    normalize (normalize [("a", ⟨3, 4, 2, 1⟩)]) = normalize [("a", ⟨3, 4, 2, 1⟩)] :=
  c10_normalizer [("a", ⟨3, 4, 2, 1⟩)] (by decide)

end FloorPlan
